import Mathlib

/-!
Student record sorter: comparator, merge sort, line parser and driver.

A shallow embedding of `main.c`: the `Student` record, the month table, the
eight-key comparator `compareStudents`, the in-place top-down merge sort
(`merge`, `mergeSort`) and the read/filter/sort/write driver.

Conventions of the embedding.
* A C string is the list of its characters (`List Char`); a NUL character
  inside a list ends the string, as it does in C.
* A C `int` is an `Int`; a subtraction whose result is returned as an `int`
  goes through `wrapInt`, the two's-complement wrap to 32 bits.
* A C `float` is a `CFloat`: NaN, an infinity, negative zero, or a finite
  value given by a rational number.
* An array is a `List`; `rd` and `wr` read and write at an `int` index.
* Allocation (`malloc`, `realloc`) is assumed to succeed.
* `sscanf` belongs to the C library: `parseLine` works on the memory that the call
  leaves (`Scan`) and `main` takes the scanning function as a parameter, so the general
  statements hold for every scanning function. `sscanfLine` models the call on plain
  lines and is used on concrete lines only.
-/

namespace StudentSort

/-! ## Machine integers and floats -/

/-- Two's-complement wrap of an integer to the range of a 32-bit `int`. -/
def wrapInt (x : Int) : Int := (x + 2147483648) % 4294967296 - 2147483648

/-- The value of a C `float`. -/
inductive CFloat where
  | nan
  | negInf
  | posInf
  | negZero
  | fin (q : ℚ)
  deriving DecidableEq, Inhabited

namespace CFloat

/-- Whether the float is a NaN. -/
def isNaN : CFloat → Bool
  | nan => true
  | _ => false

/-- Side of the extended line: `-1` for `-inf`, `1` for `+inf`, `0` otherwise. -/
def side : CFloat → Int
  | negInf => -1
  | posInf => 1
  | _ => 0

/-- Numeric value of a finite float (`-0.0` has value `0`); `0` otherwise. -/
def value : CFloat → ℚ
  | fin q => q
  | _ => 0

/-- IEEE `x < y`: false when either side is NaN. -/
def lt (x y : CFloat) : Bool :=
  !x.isNaN && !y.isNaN &&
    (decide (x.side < y.side) || (decide (x.side = y.side) && decide (x.value < y.value)))

/-- IEEE `x != y`: true when either side is NaN. -/
def ne (x y : CFloat) : Bool :=
  x.isNaN || y.isNaN || decide (x.side ≠ y.side) || decide (x.value ≠ y.value)

end CFloat

/-! ## Strings -/

/-- The C library's `tolower` in the C locale, as an `int`: `A`..`Z` are moved to
`a`..`z`, every other character code is unchanged. -/
def tolower (c : Char) : Int :=
  if 65 ≤ c.toNat ∧ c.toNat ≤ 90 then (c.toNat : Int) + 32 else (c.toNat : Int)

/-- The C library's `strcasecmp`: the difference of the lowered character codes at
the first position where the two strings differ case-insensitively, the end of a
string counting as code `0`; `0` when there is no such position. -/
def strcasecmp : List Char → List Char → Int
  | [], [] => 0
  | [], d :: _ => 0 - tolower d
  | c :: _, [] => tolower c - 0
  | c :: cs, d :: ds =>
    if tolower c ≠ tolower d then tolower c - tolower d
    else if c.toNat = 0 then 0
    else strcasecmp cs ds

/-! ## The record -/

/-- The `Student` struct. -/
structure Student where
  firstName : List Char
  lastName : List Char
  month : List Char
  day : Int
  year : Int
  gpa : CFloat
  status : Char
  toefl : Int
  deriving DecidableEq, Inhabited

/-- The table `months[]` of `monthToNum`. -/
def months : List (List Char) :=
  ["Jan".toList, "Feb".toList, "Mar".toList, "Apr".toList, "May".toList, "Jun".toList,
   "Jul".toList, "Aug".toList, "Sep".toList, "Oct".toList, "Nov".toList, "Dec".toList]

/-- The loop of `monthToNum` from index `i` over the rest of the table. -/
def monthToNumLoop (month : List Char) : List (List Char) → Int → Int
  | [], _ => -1
  | m :: rest, i =>
    if strcasecmp month m = 0 then i + 1 else monthToNumLoop month rest (i + 1)

/-- Month abbreviation to its number, `-1` when it is not in the table. -/
def monthToNum (month : List Char) : Int := monthToNumLoop month months 0

/-- `isValidMonth`. -/
def isValidMonth (month : List Char) : Bool := decide (monthToNum month ≠ -1)

/-- `isValidDate`. -/
def isValidDate (month : List Char) (day year : Int) : Bool :=
  if !isValidMonth month then false
  else if year < 1950 ∨ year > 2010 then false
  else if day < 1 ∨ day > 31 then false
  else true

/-- A C comparison result as an `int`. -/
def boolToInt (b : Bool) : Int := if b then 1 else 0

/-- `compareStudents`: the eight-key cascade. -/
def compareStudents (a b : Student) : Int :=
  if a.year ≠ b.year then wrapInt (a.year - b.year)
  else
    let monthDiff := wrapInt (monthToNum a.month - monthToNum b.month)
    if monthDiff ≠ 0 then monthDiff
    else if a.day ≠ b.day then wrapInt (a.day - b.day)
    else
      let lastNameCmp := strcasecmp a.lastName b.lastName
      if lastNameCmp ≠ 0 then lastNameCmp
      else
        let firstNameCmp := strcasecmp a.firstName b.firstName
        if firstNameCmp ≠ 0 then firstNameCmp
        else if CFloat.ne a.gpa b.gpa then (if CFloat.lt a.gpa b.gpa then 1 else -1)
        else if a.toefl ≠ b.toefl then
          if a.toefl = -1 then -1
          else if b.toefl = -1 then 1
          else if a.toefl < b.toefl then 1 else -1
        else boolToInt (b.status == 'D') - boolToInt (a.status == 'D')

/-- The GPA range of a validated record: a number between `0.0` and `4.301`. -/
def GpaInRange (g : CFloat) : Prop :=
  g.isNaN = false ∧ g.side = 0 ∧ 0 ≤ g.value ∧ g.value ≤ mkRat 4301 1000

/-- The validity invariant of a record: recognised month, day in `[1,31]`, year in
`[1950,2010]`, GPA in `[0.0,4.301]`, status `D` with the absent TOEFL sentinel `-1`
or status `I` with a TOEFL score in `[0,120]`. -/
def Validated (s : Student) : Prop :=
  monthToNum s.month ≠ -1 ∧ 1 ≤ s.day ∧ s.day ≤ 31 ∧ 1950 ≤ s.year ∧ s.year ≤ 2010 ∧
  GpaInRange s.gpa ∧
  ((s.status = 'D' ∧ s.toefl = -1) ∨ (s.status = 'I' ∧ 0 ≤ s.toefl ∧ s.toefl ≤ 120))

instance (g : CFloat) : Decidable (GpaInRange g) := by
  unfold GpaInRange; infer_instance

instance (s : Student) : Decidable (Validated s) := by
  unfold Validated; infer_instance

/-! ## The sorter -/

/-- The comparator test of the merge loop, `compareStudents(x, y) <= 0`. -/
def leS (x y : Student) : Bool := decide (compareStudents x y ≤ 0)

/-- Read `arr[i]` at an `int` index. -/
def rd (arr : List Student) (i : Int) : Student := arr.getD i.toNat default

/-- Write `arr[i] = v` at an `int` index. -/
def wr (arr : List Student) (i : Int) (v : Student) : List Student := arr.set i.toNat v

/-- The copy loops of `merge`: the fresh buffer `T` of `n` elements with
`T[i] = arr[start + i]` for `0 <= i < n`. -/
def copyRange (arr : List Student) (start n : Int) : List Student :=
  (List.range n.toNat).map (fun (i : Nat) => rd arr (start + (i : Int)))

/-- The loop `while (i < n1 && j < n2)` of `merge`, on the state `(arr, i, j, k)`;
the first argument bounds the number of iterations. -/
def mergeLoop (L R : List Student) (n1 n2 : Int) :
    Nat → List Student → Int → Int → Int → List Student × Int × Int × Int
  | 0, arr, i, j, k => (arr, i, j, k)
  | fuel + 1, arr, i, j, k =>
    if i < n1 ∧ j < n2 then
      if compareStudents (rd L i) (rd R j) ≤ 0 then
        mergeLoop L R n1 n2 fuel (wr arr k (rd L i)) (i + 1) j (k + 1)
      else
        mergeLoop L R n1 n2 fuel (wr arr k (rd R j)) i (j + 1) (k + 1)
    else (arr, i, j, k)

/-- The loops `while (i < n) arr[k++] = T[i++]` of `merge`, on the state `(arr, i, k)`;
the first argument bounds the number of iterations. -/
def drainLoop (T : List Student) (n : Int) :
    Nat → List Student → Int → Int → List Student × Int × Int
  | 0, arr, i, k => (arr, i, k)
  | fuel + 1, arr, i, k =>
    if i < n then drainLoop T n fuel (wr arr k (rd T i)) (i + 1) (k + 1)
    else (arr, i, k)

/-- `merge`: merges the adjacent runs `arr[left..mid]` and `arr[mid+1..right]` in
place. Each loop is given as many iterations as it has elements left to move. -/
def merge (arr : List Student) (left mid right : Int) : List Student :=
  let n1 := mid - left + 1
  let n2 := right - mid
  let L := copyRange arr left n1
  let R := copyRange arr (mid + 1) n2
  let s1 := mergeLoop L R n1 n2 (n1 + n2).toNat arr 0 0 left
  let s2 := drainLoop L n1 (n1 - s1.2.1).toNat s1.1 s1.2.1 s1.2.2.2
  let s3 := drainLoop R n2 (n2 - s1.2.2.1).toNat s2.1 s1.2.2.1 s2.2.2
  s3.1

/-- The two drain loops of `merge`, run from the state `s1` in which the main loop
ends (`merge` is `drainBoth` of its main loop, see `merge_eq_drainBoth`). -/
def drainBoth (L R : List Student) (n1 n2 : Int) (s1 : List Student × Int × Int × Int) :
    List Student :=
  let s2 := drainLoop L n1 (n1 - s1.2.1).toNat s1.1 s1.2.1 s1.2.2.2
  let s3 := drainLoop R n2 (n2 - s1.2.2.1).toNat s2.1 s1.2.2.1 s2.2.2
  s3.1

/-- The recursion of `mergeSort`, with a bound on its depth. -/
def mergeSortFuel : Nat → List Student → Int → Int → List Student
  | 0, arr, _, _ => arr
  | fuel + 1, arr, left, right =>
    if left < right then
      let mid := left + (right - left).tdiv 2
      let arr1 := mergeSortFuel fuel arr left mid
      let arr2 := mergeSortFuel fuel arr1 (mid + 1) right
      merge arr2 left mid right
    else arr

/-- `mergeSort`: sorts `arr[left..right]` in place. The depth bound `right - left`
is never reached (see `mergeSort_eq`). -/
def mergeSort (arr : List Student) (left right : Int) : List Student :=
  mergeSortFuel (right - left).toNat arr left right

/-- The call `mergeSort(students, 0, count - 1)` of the driver. -/
def sortAll (students : List Student) : List Student :=
  mergeSort students 0 ((students.length : Int) - 1)

/-! ## The line parser and the driver -/

/-- The memory after the `sscanf` call of `parseLine`: the number `result` of fields
converted and the contents of the eight destinations. A destination whose field was
not converted holds what it held before the call (`toeflScore` starts at `-1`). -/
structure Scan where
  result : Int
  firstName : List Char
  lastName : List Char
  monthStr : List Char
  day : Int
  year : Int
  gpa : CFloat
  status : Char
  toeflScore : Int
  deriving DecidableEq

/-- The `double` constant `4.301` of the GPA check, exactly. -/
def gpaMax : ℚ := mkRat 2421247749665063 562949953421312

/-- The tail of `parseLine` after the TOEFL score has been settled: date check,
copy of the date, GPA check. -/
def parseTail (sc : Scan) (toefl : Int) : Option Student :=
  if !isValidDate sc.monthStr sc.day sc.year then none
  else if CFloat.lt sc.gpa (CFloat.fin 0) || CFloat.lt (CFloat.fin gpaMax) sc.gpa then none
  else some
    { firstName := sc.firstName, lastName := sc.lastName, month := sc.monthStr, day := sc.day,
      year := sc.year, gpa := sc.gpa, status := sc.status, toefl := toefl }

/-- `parseLine` on the outcome of its `sscanf` call: the record, or `none` where the
source returns `0`. -/
def parseLine (sc : Scan) : Option Student :=
  if sc.result = 8 ∧ sc.status = 'I' then
    if sc.toeflScore < 0 ∨ sc.toeflScore > 120 then none
    else parseTail sc sc.toeflScore
  else if sc.result = 7 ∧ sc.status = 'D' then parseTail sc (-1)
  else if sc.result = 7 ∧ sc.status = 'I' then parseTail sc 0
  else none

/-- A line of the output file: the error line, or a record line (the TOEFL score is
printed for status `I` only). -/
inductive OutLine where
  | error
  | record (s : Student) (toefl : Option Int)
  deriving DecidableEq

/-- The filter test of the read loop: whether a parsed record is skipped under the
given option (`1` keeps status `D` only, `2` keeps status `I` only). -/
def skipped (option : Int) (student : Student) : Bool :=
  (decide (option = 1) && student.status != 'D') || (decide (option = 2) && student.status != 'I')

/-- The read loop of `main` over the lines that `fgets` returns, with the records
collected so far: `none` when a line fails `parseLine`. -/
def readLoop (sscanf : List Char → Scan) (option : Int) :
    List (List Char) → List Student → Option (List Student)
  | [], students => some students
  | line :: rest, students =>
    match parseLine (sscanf line) with
    | none => none
    | some student =>
      if skipped option student then readLoop sscanf option rest students
      else readLoop sscanf option rest (students ++ [student])

/-- The output loop of `main`: one line for a record. -/
def writeRecord (s : Student) : OutLine :=
  OutLine.record s (if s.status = 'I' then some s.toefl else none)

/-- `main` once both files are open: the lines written to the output file and the
exit code. -/
def main (sscanf : List Char → Scan) (option : Int) (lines : List (List Char)) :
    List OutLine × Int :=
  if option < 1 ∨ option > 3 then ([], 1)
  else
    match readLoop sscanf option lines [] with
    | none => ([OutLine.error], 1)
    | some students => ((sortAll students).map writeRecord, 0)

/-! ## Functional merge sort, used to reason about the in-place one -/

section Functional

variable {α : Type}

/-- Merge of two lists, taking the left head when `le` holds of the two heads. -/
def mergeLists (le : α → α → Bool) : List α → List α → List α
  | [], ys => ys
  | x :: xs, [] => x :: xs
  | x :: xs, y :: ys =>
    if le x y then x :: mergeLists le xs (y :: ys) else y :: mergeLists le (x :: xs) ys

/-- Top-down merge sort of a list, split after the first `(length + 1) / 2` elements,
with the same depth bound as `mergeSortFuel`. -/
def gsortFuel (le : α → α → Bool) : Nat → List α → List α
  | 0, l => l
  | fuel + 1, l =>
    if 2 ≤ l.length then
      mergeLists le (gsortFuel le fuel (l.take ((l.length + 1) / 2)))
        (gsortFuel le fuel (l.drop ((l.length + 1) / 2)))
    else l

/-- Functional merge sort with a sufficient depth bound. -/
def gsort (le : α → α → Bool) (l : List α) : List α := gsortFuel le l.length l

/-- Two elements are tied when each is below the other. -/
def tied (le : α → α → Bool) (a x : α) : Bool := le a x && le x a

/-- On the elements that satisfy `P`, `le` is the test of a total preorder. -/
structure PreorderOn (P : α → Prop) (le : α → α → Bool) : Prop where
  total : ∀ a b, P a → P b → le a b = true ∨ le b a = true
  trans : ∀ a b c, P a → P b → P c → le a b = true → le b c = true → le a c = true

end Functional

/-! ## The comparator, key by key -/

section Keys

variable {α : Type}

/-- Cascade of two comparisons: the first decides unless it ties. -/
def cascade (c1 c2 : α → α → Int) (a b : α) : Int := if c1 a b ≠ 0 then c1 a b else c2 a b

/-- On the elements that satisfy `P`, the sign of `c` is that of a total preorder:
swapping the arguments swaps the sign, and `c a b ≤ 0` is transitive. -/
structure CmpOn (P : α → Prop) (c : α → α → Int) : Prop where
  swap : ∀ a b, P a → P b → (c a b < 0 ↔ 0 < c b a)
  trans : ∀ a b d, P a → P b → P d → c a b ≤ 0 → c b d ≤ 0 → c a d ≤ 0

end Keys

/-- Key 1 of `compareStudents`: year of birth. -/
def cmpYear (a b : Student) : Int := a.year - b.year

/-- Key 2: month of birth, by number. -/
def cmpMonth (a b : Student) : Int := monthToNum a.month - monthToNum b.month

/-- Key 3: day of birth. -/
def cmpDay (a b : Student) : Int := a.day - b.day

/-- Key 4: last name. -/
def cmpLast (a b : Student) : Int := strcasecmp a.lastName b.lastName

/-- Key 5: first name. -/
def cmpFirst (a b : Student) : Int := strcasecmp a.firstName b.firstName

/-- Key 6: GPA, the larger first. -/
def cmpGpa (a b : Student) : Int :=
  if CFloat.ne a.gpa b.gpa then (if CFloat.lt a.gpa b.gpa then 1 else -1) else 0

/-- Key 7: TOEFL, `-1` first, then the larger score first. -/
def cmpToefl (a b : Student) : Int :=
  if a.toefl ≠ b.toefl then
    if a.toefl = -1 then -1
    else if b.toefl = -1 then 1
    else if a.toefl < b.toefl then 1 else -1
  else 0

/-- Key 8: status, `D` first. -/
def cmpStatus (a b : Student) : Int :=
  boolToInt (b.status == 'D') - boolToInt (a.status == 'D')

/-- The eight keys in cascade. -/
def cmpKeys : Student → Student → Int :=
  cascade cmpYear (cascade cmpMonth (cascade cmpDay (cascade cmpLast
    (cascade cmpFirst (cascade cmpGpa (cascade cmpToefl cmpStatus))))))

/-! ## The ordering rule in the words of the specification -/

/-- The text held by a C string: the characters before the first NUL. -/
def cstr (s : List Char) : List Char := s.takeWhile (fun c => decide (c.toNat ≠ 0))

/-- A name with the letter case folded away: the lowered character codes of its text. -/
def foldCase (s : List Char) : List Int := (cstr s).map tolower

/-- Lexicographic comparison of two sequences of character codes: the first position
where they differ decides, and a proper prefix comes first. -/
def lexCompare : List Int → List Int → Ordering
  | [], [] => Ordering.eq
  | [], _ :: _ => Ordering.lt
  | _ :: _, [] => Ordering.gt
  | x :: xs, y :: ys => if x < y then Ordering.lt else if y < x then Ordering.gt
      else lexCompare xs ys

/-- Ascending comparison of two integers. -/
def ascending (x y : Int) : Ordering :=
  if x < y then Ordering.lt else if y < x then Ordering.gt else Ordering.eq

/-- Specification key 1: birth year, ascending. -/
def specYear (a b : Student) : Ordering := ascending a.year b.year

/-- Specification key 2: birth month, ascending by calendar ordinal. -/
def specMonth (a b : Student) : Ordering := ascending (monthToNum a.month) (monthToNum b.month)

/-- Specification key 3: birth day, ascending. -/
def specDay (a b : Student) : Ordering := ascending a.day b.day

/-- Specification key 4: last name, ascending, case-insensitive lexicographic. -/
def specLast (a b : Student) : Ordering := lexCompare (foldCase a.lastName) (foldCase b.lastName)

/-- Specification key 5: first name, ascending, case-insensitive lexicographic. -/
def specFirst (a b : Student) : Ordering :=
  lexCompare (foldCase a.firstName) (foldCase b.firstName)

/-- Specification key 6: GPA, descending (the higher GPA first). -/
def specGpa (a b : Student) : Ordering :=
  if b.gpa.value < a.gpa.value then Ordering.lt
  else if a.gpa.value < b.gpa.value then Ordering.gt else Ordering.eq

/-- Specification key 7: a record with the absent-score sentinel ranks ahead of any
record with a real score; between two real scores the higher one comes first. -/
def specToefl (a b : Student) : Ordering :=
  if a.toefl = -1 ∧ b.toefl = -1 then Ordering.eq
  else if a.toefl = -1 then Ordering.lt
  else if b.toefl = -1 then Ordering.gt
  else ascending b.toefl a.toefl

/-- Specification key 8: Domestic ranks ahead of International. -/
def specStatus (a b : Student) : Ordering :=
  if a.status = 'D' ∧ b.status = 'I' then Ordering.lt
  else if a.status = 'I' ∧ b.status = 'D' then Ordering.gt
  else Ordering.eq

/-- The eight keys of the specification, in priority order. -/
def specKeys : List (Student → Student → Ordering) :=
  [specYear, specMonth, specDay, specLast, specFirst, specGpa, specToefl, specStatus]

/-- The first result that is not a tie decides; all ties give a tie. -/
def firstDiffering : List Ordering → Ordering
  | [] => Ordering.eq
  | Ordering.eq :: os => firstDiffering os
  | o :: _ => o

/-- The reference comparison of the specification: the lexicographic cascade of the
eight keys. -/
def specCompare (a b : Student) : Ordering := firstDiffering (specKeys.map (fun k => k a b))

/-- The integer `z` has the sign that the ordering `o` names. -/
def SignIs (z : Int) (o : Ordering) : Prop :=
  (z < 0 ∧ o = Ordering.lt) ∨ (z = 0 ∧ o = Ordering.eq) ∨ (0 < z ∧ o = Ordering.gt)

/-! ## The C library's `sscanf` on the format of `parseLine` -/

/-- `n / d` rounded to the nearest integer, a tie going to the even one. -/
def roundHalfEven (n d : Nat) : Nat :=
  if 2 * (n % d) < d then n / d
  else if d < 2 * (n % d) then n / d + 1
  else if (n / d) % 2 = 0 then n / d else n / d + 1

/-- Number of halvings that bring `n` below `2`, with a bound on the count. -/
def log2Fuel : Nat → Nat → Nat
  | 0, _ => 0
  | fuel + 1, n => if 2 ≤ n then log2Fuel fuel (n / 2) + 1 else 0

/-- The exponent `e` with `2^e ≤ n / d < 2^(e+1)`, for `0 < n` and `0 < d`. -/
def floorLog2 (n d : Nat) : Int :=
  if d ≤ n then (log2Fuel (n / d) (n / d) : Int)
  else -((log2Fuel ((d + n - 1) / n) ((d + n - 1) / n - 1) + 1 : Nat) : Int)

/-- The significand of the `float` nearest to `n / d` at exponent `e`: `n / d` in
units of `2^(e-23)`, rounded to the nearest integer, ties to even. -/
def floatMantissa (n d : Nat) (e : Int) : Nat :=
  if e ≤ 23 then roundHalfEven (n * 2 ^ (23 - e).toNat) d
  else roundHalfEven n (d * 2 ^ (e - 23).toNat)

/-- The number `± m * 2^(e-23)`. -/
def floatValue (neg : Bool) (m : Nat) (e : Int) : ℚ :=
  if e ≤ 23 then mkRat (if neg then -(m : Int) else (m : Int)) (2 ^ (23 - e).toNat)
  else mkRat (if neg then -((m * 2 ^ (e - 23).toNat : Nat) : Int)
    else ((m * 2 ^ (e - 23).toNat : Nat) : Int)) 1

/-- The `float` (IEEE binary32) nearest to `± n / d`, ties to even, as the C library
converts a decimal number: 24-bit significand, exponent at least `-126` (below it the
numbers are subnormal), infinity from `2^128` on. -/
def roundToFloat (neg : Bool) (n d : Nat) : CFloat :=
  if n = 0 then (if neg then CFloat.negZero else CFloat.fin 0)
  else
    let e : Int := max (floorLog2 n d) (-126)
    let m : Nat := floatMantissa n d e
    if m = 0 then (if neg then CFloat.negZero else CFloat.fin 0)
    else if 128 ≤ e ∨ (e = 127 ∧ m = 2 ^ 24) then (if neg then CFloat.negInf else CFloat.posInf)
    else CFloat.fin (floatValue neg m e)

/-- The C library's `isspace` in the C locale. -/
def isSpace (c : Char) : Bool := c.toNat = 32 || (9 ≤ c.toNat && c.toNat ≤ 13)

/-- The C library's `isdigit`. -/
def isDigit (c : Char) : Bool := 48 ≤ c.toNat && c.toNat ≤ 57

/-- Skip the white space at the head of the input. -/
def skipSpace : List Char → List Char
  | [] => []
  | c :: cs => if isSpace c then skipSpace cs else c :: cs

/-- The run of at most `width` characters that are not white space at the head of the
input, and the rest of the input. -/
def takeWord : Nat → List Char → List Char × List Char
  | 0, s => ([], s)
  | _ + 1, [] => ([], [])
  | width + 1, c :: cs =>
    if isSpace c then ([], c :: cs)
    else ((c :: (takeWord width cs).1), (takeWord width cs).2)

/-- The run of decimal digits at the head of the input, and the rest of the input. -/
def takeDigits : List Char → List Char × List Char
  | [] => ([], [])
  | c :: cs => if isDigit c then ((c :: (takeDigits cs).1), (takeDigits cs).2) else ([], c :: cs)

/-- The number that a run of decimal digits writes, continuing from `acc`. -/
def digitsValue : Nat → List Char → Nat
  | acc, [] => acc
  | acc, c :: cs => digitsValue (10 * acc + (c.toNat - 48)) cs

/-- An optional sign at the head of the input: whether it is `-`, and the rest. -/
def takeSign : List Char → Bool × List Char
  | c :: cs => if c = '-' then (true, cs) else if c = '+' then (false, cs) else (false, c :: cs)
  | [] => (false, [])

/-- The outcome of one conversion of `sscanf`. -/
inductive Conv (α : Type) where
  /-- The field was converted to `v`; `rest` is the unread input. -/
  | ok (v : α) (rest : List Char)
  /-- Matching or input failure: `sscanf` returns at this directive. -/
  | stop
  /-- The input is outside this model: undefined in C (overflow of the destination) or
  a syntax that is not modelled. -/
  | outside

/-- The conversions `%s` (with `width = 100`, one more than `firstName` and `lastName`
hold) and `%3s`: white space is skipped and the following run of characters that are
not white space is stored. A run of `limit` characters or more overflows the
destination. -/
def convStr (width limit : Nat) (s : List Char) : Conv (List Char) :=
  if (takeWord width (skipSpace s)).1 = [] then Conv.stop
  else if limit ≤ (takeWord width (skipSpace s)).1.length then Conv.outside
  else Conv.ok (takeWord width (skipSpace s)).1 (takeWord width (skipSpace s)).2

/-- The conversion `%d`: white space is skipped, then an optional sign and a run of
decimal digits are read. No digit is a matching failure; a value that does not fit an
`int` is undefined in C. -/
def convInt (s : List Char) : Conv Int :=
  let t := takeSign (skipSpace s)
  let ds := takeDigits t.2
  if ds.1 = [] then Conv.stop
  else
    let v : Int := if t.1 then -(digitsValue 0 ds.1 : Int) else (digitsValue 0 ds.1 : Int)
    if v < -2147483648 ∨ 2147483647 < v then Conv.outside else Conv.ok v ds.2

/-- Whether the input starts with the given word, letter case ignored; the rest of the
input when it does. -/
def takeKeyword : List Char → List Char → Option (List Char)
  | [], s => some s
  | _ :: _, [] => none
  | k :: ks, c :: cs => if tolower c = tolower k then takeKeyword ks cs else none

/-- The conversion `%f`: white space is skipped, then an optional sign and one of
`nan`, `inf`, `infinity` (in any letter case) or a decimal number with an optional
fraction is read and converted to the nearest `float`. Not modelled: a decimal
exponent, a hexadecimal constant, `nan(...)`, and `inf` followed by a part of
`inity`, on which C libraries differ. -/
def convFloat (s : List Char) : Conv CFloat :=
  let t := takeSign (skipSpace s)
  match takeKeyword "nan".toList t.2 with
  | some rest =>
    match rest with
    | c :: _ => if c = '(' then Conv.outside else Conv.ok CFloat.nan rest
    | [] => Conv.ok CFloat.nan rest
  | none =>
    match takeKeyword "inf".toList t.2 with
    | some rest =>
      match takeKeyword "inity".toList rest with
      | some rest2 => Conv.ok (if t.1 then CFloat.negInf else CFloat.posInf) rest2
      | none =>
        match rest with
        | c :: _ =>
          if tolower c = tolower 'i' then Conv.outside
          else Conv.ok (if t.1 then CFloat.negInf else CFloat.posInf) rest
        | [] => Conv.ok (if t.1 then CFloat.negInf else CFloat.posInf) rest
    | none =>
      let ip := takeDigits t.2
      let fp : List Char × List Char :=
        match ip.2 with
        | c :: cs => if c = '.' then takeDigits cs else ([], ip.2)
        | [] => ([], [])
      if ip.1 = [] ∧ fp.1 = [] then Conv.stop
      else
        match fp.2 with
        | c :: _ =>
          if tolower c = tolower 'e' ∨ tolower c = tolower 'x' then Conv.outside
          else Conv.ok (roundToFloat t.1 (digitsValue 0 (ip.1 ++ fp.1)) (10 ^ fp.1.length)) fp.2
        | [] => Conv.ok (roundToFloat t.1 (digitsValue 0 (ip.1 ++ fp.1)) (10 ^ fp.1.length)) fp.2

/-- The conversion `%c` after white space in the format: white space is skipped and
the next character is stored. -/
def convChar (s : List Char) : Conv Char :=
  match skipSpace s with
  | c :: cs => Conv.ok c cs
  | [] => Conv.stop

/-- An ordinary character of the format: the next character of the input has to be
that character. -/
def matchChar (k : Char) : List Char → Option (List Char)
  | c :: cs => if c = k then some cs else none
  | [] => none

/-- The memory before the `sscanf` call of `parseLine`: `toeflScore` is `-1`, nothing is
converted; the other destinations are not initialised in the source and hold arbitrary
values, here empty strings and zeros. -/
def scanInit : Scan :=
  { result := 0, firstName := [], lastName := [], monthStr := [], day := 0, year := 0,
    gpa := CFloat.fin 0, status := 'x', toeflScore := -1 }

/-- The call `sscanf(line, "%s %s %3s-%d-%d %f %c %d", ...)` of `parseLine`: the
directives are run in order on the text of the line, each conversion stores its field
and counts; at the first failure the call returns the count so far (`EOF`, that is `-1`,
when the input ends before the first conversion). `none` when the line is outside the
model (see `Conv.outside`). -/
def sscanfLine (line : List Char) : Option Scan :=
  if skipSpace (cstr line) = [] then some { scanInit with result := -1 }
  else
  match convStr 100 100 (cstr line) with
  | Conv.outside => none
  | Conv.stop => some scanInit
  | Conv.ok first s1 =>
  let sc1 := { scanInit with result := 1, firstName := first }
  match convStr 100 100 s1 with
  | Conv.outside => none
  | Conv.stop => some sc1
  | Conv.ok last s2 =>
  let sc2 := { sc1 with result := 2, lastName := last }
  match convStr 3 4 s2 with
  | Conv.outside => none
  | Conv.stop => some sc2
  | Conv.ok month s3 =>
  let sc3 := { sc2 with result := 3, monthStr := month }
  match matchChar '-' s3 with
  | none => some sc3
  | some s4 =>
  match convInt s4 with
  | Conv.outside => none
  | Conv.stop => some sc3
  | Conv.ok day s5 =>
  let sc4 := { sc3 with result := 4, day := day }
  match matchChar '-' s5 with
  | none => some sc4
  | some s6 =>
  match convInt s6 with
  | Conv.outside => none
  | Conv.stop => some sc4
  | Conv.ok year s7 =>
  let sc5 := { sc4 with result := 5, year := year }
  match convFloat s7 with
  | Conv.outside => none
  | Conv.stop => some sc5
  | Conv.ok gpa s8 =>
  let sc6 := { sc5 with result := 6, gpa := gpa }
  match convChar s8 with
  | Conv.outside => none
  | Conv.stop => some sc6
  | Conv.ok status s9 =>
  let sc7 := { sc6 with result := 7, status := status }
  match convInt s9 with
  | Conv.outside => none
  | Conv.stop => some sc7
  | Conv.ok toefl _ => some { sc7 with result := 8, toeflScore := toefl }

/-- The `return` statement at which `compareStudents` ends, by the number (1 to 8) of
its key: the conditions are those of the source, in the same order. -/
def decidingKey (a b : Student) : Nat :=
  if a.year ≠ b.year then 1
  else if wrapInt (monthToNum a.month - monthToNum b.month) ≠ 0 then 2
  else if a.day ≠ b.day then 3
  else if strcasecmp a.lastName b.lastName ≠ 0 then 4
  else if strcasecmp a.firstName b.firstName ≠ 0 then 5
  else if CFloat.ne a.gpa b.gpa then 6
  else if a.toefl ≠ b.toefl then 7
  else 8

/-! ## Sample lines -/

/-- The line `Jane Doe Mar-5-1999 3.800 D`, as `fgets` returns it. -/
def lineJane : List Char := "Jane Doe Mar-5-1999 3.800 D\n".toList

/-- The line `Amir Lee Mar-5-1999 3.800 I 95`. -/
def lineAmir : List Char := "Amir Lee Mar-5-1999 3.800 I 95\n".toList

/-- The line `Jane Doe Mar-5-1999 4.301 D`. -/
def lineGpa4301 : List Char := "Jane Doe Mar-5-1999 4.301 D\n".toList

/-- The line `Jane Doe Mar-5-1999 4.302 D`. -/
def lineGpa4302 : List Char := "Jane Doe Mar-5-1999 4.302 D\n".toList

/-- The line `Jane Doe Mar-5-1999 4.300 D`. -/
def lineGpa4300 : List Char := "Jane Doe Mar-5-1999 4.300 D\n".toList

/-- The line `Jane Doe Mar-5-1999 nan D`. -/
def lineGpaNaN : List Char := "Jane Doe Mar-5-1999 nan D\n".toList

/-- The line `Jane Doe mar-5-1999 3.800 D`, the month in lower case. -/
def lineMonthLower : List Char := "Jane Doe mar-5-1999 3.800 D\n".toList

/-- The line `Jane Doe MAR-5-1999 3.800 D`, the month in upper case. -/
def lineMonthUpper : List Char := "Jane Doe MAR-5-1999 3.800 D\n".toList

/-- The `float` nearest to 3.8. -/
def float3800 : CFloat := CFloat.fin (mkRat 15938355 4194304)

/-- The `float` nearest to 4.301. -/
def float4301 : CFloat := CFloat.fin (mkRat 9019851 2097152)

/-- The finite values of a `float` (IEEE binary32): `m * 2^e` with `|m| < 2^24` and
`e` at least `-149`. -/
def IsBinary32 (q : ℚ) : Prop :=
  ∃ (m e : Int), |m| < 2 ^ 24 ∧ -149 ≤ e ∧ q = (m : ℚ) * (2 : ℚ) ^ e

/-- What `sscanf` leaves for `lineJane`. -/
def scanJaneDoe : Scan :=
  { result := 7, firstName := "Jane".toList, lastName := "Doe".toList,
    monthStr := "Mar".toList, day := 5, year := 1999, gpa := float3800, status := 'D',
    toeflScore := -1 }

/-- What `sscanf` leaves for `lineAmir`. -/
def scanAmirLee : Scan :=
  { result := 8, firstName := "Amir".toList, lastName := "Lee".toList,
    monthStr := "Mar".toList, day := 5, year := 1999, gpa := float3800, status := 'I',
    toeflScore := 95 }

/-- The record of `lineJane`. -/
def janeDoe : Student :=
  { firstName := "Jane".toList, lastName := "Doe".toList, month := "Mar".toList, day := 5,
    year := 1999, gpa := float3800, status := 'D', toefl := -1 }

/-- The record of `lineAmir`. -/
def amirLee : Student :=
  { firstName := "Amir".toList, lastName := "Lee".toList, month := "Mar".toList, day := 5,
    year := 1999, gpa := float3800, status := 'I', toefl := 95 }

/-- A total scanning function that follows `sscanfLine`; on a line outside that model
it returns the untouched memory, a choice on which no statement relies. -/
def sscanfModel (line : List Char) : Scan :=
  match sscanfLine line with
  | some sc => sc
  | none => scanInit

/-- What `sscanf` leaves for the line `Jane Doe Mar-5-1999 3.500 D`: seven fields
converted, the TOEFL destination untouched. -/
def scanJane : Scan :=
  { result := 7, firstName := "Jane".toList, lastName := "Doe".toList,
    monthStr := "Mar".toList, day := 5, year := 1999, gpa := CFloat.fin (mkRat 7 2),
    status := 'D', toeflScore := -1 }

/-- What `sscanf` leaves for the line `Jane Doe Mar-5-2011 3.500 D`, whose year is out of
range. -/
def scanBadYear : Scan := { scanJane with year := 2011 }

/-- A scanning function for a three-line sample input: the line `bad` scans to
`scanBadYear`, every other line to `scanJane`. -/
def sampleScan (line : List Char) : Scan :=
  if line = "bad".toList then scanBadYear else scanJane

/-- The array with every record tagged by its position. -/
def tagPositions (arr : List Student) : List (Nat × Student) :=
  (List.range arr.length).map (fun (k : Nat) => (k, rd arr (k : Int)))

/-! ## Sample records -/

/-- A domestic record: `Jane Doe Mar-5-1999 3.500 D`. -/
def recJane : Student :=
  { firstName := "Jane".toList, lastName := "Doe".toList, month := "Mar".toList, day := 5,
    year := 1999, gpa := CFloat.fin (mkRat 7 2), status := 'D', toefl := -1 }

/-- An international record with the same date, name and GPA:
`Jane Doe Mar-5-1999 3.500 I 118`. -/
def recJaneI : Student := { recJane with status := 'I', toefl := 118 }

/-- An international record: `Amir Lee Mar-5-1999 3.500 I 95`. -/
def recAmir : Student :=
  { firstName := "Amir".toList, lastName := "Lee".toList, month := "Mar".toList, day := 5,
    year := 1999, gpa := CFloat.fin (mkRat 7 2), status := 'I', toefl := 95 }

/-- An older international record: `Bob Doe Feb-28-1998 4.000 I`. -/
def recBob : Student :=
  { firstName := "Bob".toList, lastName := "Doe".toList, month := "Feb".toList, day := 28,
    year := 1998, gpa := CFloat.fin (mkRat 4 1), status := 'I', toefl := 0 }

/-- `recJane` with the name in another letter case; it ties with `recJane`. -/
def recJaneUpper : Student :=
  { recJane with firstName := "JANE".toList, lastName := "DOE".toList }

/-! ## Lemmas on the functional merge sort -/

section FunctionalLemmas

variable {α β : Type} {le : α → α → Bool} {P : α → Prop}

theorem mergeLists_nil_right (l : List α) : mergeLists le l [] = l := by
  cases l <;> simp [mergeLists]

theorem mergeLists_perm : ∀ (xs ys : List α), (mergeLists le xs ys).Perm (xs ++ ys)
  | [], ys => by simp [mergeLists]
  | x :: xs, [] => by simp [mergeLists]
  | x :: xs, y :: ys => by
    simp only [mergeLists]
    split
    · exact (mergeLists_perm xs (y :: ys)).cons x
    · exact ((mergeLists_perm (x :: xs) ys).cons y).trans List.perm_middle.symm

theorem mem_mergeLists {a : α} {xs ys : List α} :
    a ∈ mergeLists le xs ys ↔ a ∈ xs ∨ a ∈ ys := by
  rw [(mergeLists_perm xs ys).mem_iff, List.mem_append]

theorem PreorderOn.refl (h : PreorderOn P le) (a : α) (ha : P a) : le a a = true := by
  rcases h.total a a ha ha with h1 | h1 <;> exact h1

/-- Merging two sorted lists gives a sorted list. -/
theorem mergeLists_sorted (h : PreorderOn P le) :
    ∀ (xs ys : List α), (∀ x ∈ xs, P x) → (∀ y ∈ ys, P y) →
      xs.Pairwise (fun a b => le a b = true) → ys.Pairwise (fun a b => le a b = true) →
      (mergeLists le xs ys).Pairwise (fun a b => le a b = true)
  | [], ys, _, _, _, hy => by simpa [mergeLists] using hy
  | x :: xs, [], _, _, hx, _ => by simpa [mergeLists] using hx
  | x :: xs, y :: ys, px, py, hx, hy => by
    have hx2 := List.pairwise_cons.1 hx
    have hy2 := List.pairwise_cons.1 hy
    have pxh : P x := px x (List.mem_cons_self _ _)
    have pyh : P y := py y (List.mem_cons_self _ _)
    simp only [mergeLists]
    split
    · rename_i hxy
      refine List.pairwise_cons.2 ⟨?_, mergeLists_sorted h xs (y :: ys)
        (fun z hz => px z (List.mem_cons_of_mem _ hz)) py hx2.2 hy⟩
      intro z hz
      rcases mem_mergeLists.1 hz with hz | hz
      · exact hx2.1 z hz
      · rcases List.mem_cons.1 hz with rfl | hz
        · exact hxy
        · exact h.trans x y z pxh pyh (py z (List.mem_cons_of_mem _ hz)) hxy (hy2.1 z hz)
    · rename_i hxy
      have hyx : le y x = true := by
        rcases h.total x y pxh pyh with h1 | h1
        · exact absurd h1 hxy
        · exact h1
      refine List.pairwise_cons.2 ⟨?_, mergeLists_sorted h (x :: xs) ys px
        (fun z hz => py z (List.mem_cons_of_mem _ hz)) hx hy2.2⟩
      intro z hz
      rcases mem_mergeLists.1 hz with hz | hz
      · rcases List.mem_cons.1 hz with rfl | hz
        · exact hyx
        · exact h.trans y x z pyh pxh (px z (List.mem_cons_of_mem _ hz)) hyx (hx2.1 z hz)
      · exact hy2.1 z hz

/-- A merge keeps, within a class of mutually tied elements, the elements of the left
list before those of the right list. -/
theorem mergeLists_filter (h : PreorderOn P le) (q : α → Bool)
    (hq : ∀ x y, P x → P y → q x = true → q y = true → le x y = true) :
    ∀ (xs ys : List α), (∀ x ∈ xs, P x) → (∀ y ∈ ys, P y) →
      xs.Pairwise (fun a b => le a b = true) →
      (mergeLists le xs ys).filter q = xs.filter q ++ ys.filter q
  | [], ys, _, _, _ => by simp [mergeLists]
  | x :: xs, [], _, _, _ => by simp [mergeLists]
  | x :: xs, y :: ys, px, py, hx => by
    have hx2 := List.pairwise_cons.1 hx
    have pxh : P x := px x (List.mem_cons_self _ _)
    have pyh : P y := py y (List.mem_cons_self _ _)
    simp only [mergeLists]
    split
    · have ih := mergeLists_filter h q hq xs (y :: ys)
        (fun z hz => px z (List.mem_cons_of_mem _ hz)) py hx2.2
      by_cases hqx : q x = true
      · rw [List.filter_cons_of_pos hqx, List.filter_cons_of_pos hqx, ih, List.cons_append]
      · rw [List.filter_cons_of_neg hqx, List.filter_cons_of_neg hqx, ih]
    · rename_i hxy
      have ih := mergeLists_filter h q hq (x :: xs) ys px
        (fun z hz => py z (List.mem_cons_of_mem _ hz)) hx
      by_cases hqy : q y = true
      · have hnil : (x :: xs).filter q = [] := by
          rw [List.filter_eq_nil_iff]
          intro z hz hqz
          have hxz : le x z = true := by
            rcases List.mem_cons.1 hz with rfl | hz2
            · exact h.refl _ pxh
            · exact hx2.1 z hz2
          exact hxy (h.trans x z y pxh (px z hz) pyh hxz (hq z y (px z hz) pyh hqz hqy))
        rw [List.filter_cons_of_pos hqy, ih, hnil, List.filter_cons_of_pos hqy]
        simp
      · rw [List.filter_cons_of_neg hqy, ih, List.filter_cons_of_neg hqy]

theorem gsortFuel_perm : ∀ (f : Nat) (l : List α), (gsortFuel le f l).Perm l
  | 0, l => by simp [gsortFuel]
  | f + 1, l => by
    simp only [gsortFuel]
    split
    · refine (mergeLists_perm _ _).trans ?_
      refine ((gsortFuel_perm f _).append (gsortFuel_perm f _)).trans ?_
      rw [List.take_append_drop]
    · exact List.Perm.refl _

theorem gsortFuel_mem (f : Nat) (l : List α) (hl : ∀ x ∈ l, P x) :
    ∀ x ∈ gsortFuel le f l, P x :=
  fun x hx => hl x ((gsortFuel_perm f l).mem_iff.1 hx)

theorem pairwise_of_length_le_one {r : α → α → Prop} :
    ∀ (l : List α), l.length ≤ 1 → l.Pairwise r
  | [], _ => List.Pairwise.nil
  | [a], _ => List.pairwise_singleton r a
  | _ :: _ :: _, h => by simp at h

/-- The functional merge sort returns a sorted list. -/
theorem gsortFuel_sorted (h : PreorderOn P le) :
    ∀ (f : Nat) (l : List α), l.length ≤ f + 1 → (∀ x ∈ l, P x) →
      (gsortFuel le f l).Pairwise (fun a b => le a b = true)
  | 0, l, hf, _ => by
    simp only [gsortFuel]
    exact pairwise_of_length_le_one l (by omega)
  | f + 1, l, hf, hl => by
    simp only [gsortFuel]
    split
    · have h1 : (l.take ((l.length + 1) / 2)).length ≤ f + 1 := by
        rw [List.length_take]; omega
      have h2 : (l.drop ((l.length + 1) / 2)).length ≤ f + 1 := by
        rw [List.length_drop]; omega
      have p1 : ∀ x ∈ l.take ((l.length + 1) / 2), P x :=
        fun x hx => hl x (List.mem_of_mem_take hx)
      have p2 : ∀ x ∈ l.drop ((l.length + 1) / 2), P x :=
        fun x hx => hl x (List.mem_of_mem_drop hx)
      exact mergeLists_sorted h _ _ (gsortFuel_mem f _ p1) (gsortFuel_mem f _ p2)
        (gsortFuel_sorted h f _ h1 p1) (gsortFuel_sorted h f _ h2 p2)
    · exact pairwise_of_length_le_one l (by omega)

/-- The functional merge sort keeps every class of mutually tied elements in its
input order. -/
theorem gsortFuel_filter (h : PreorderOn P le) (q : α → Bool)
    (hq : ∀ x y, P x → P y → q x = true → q y = true → le x y = true) :
    ∀ (f : Nat) (l : List α), l.length ≤ f + 1 → (∀ x ∈ l, P x) →
      (gsortFuel le f l).filter q = l.filter q
  | 0, l, _, _ => by simp [gsortFuel]
  | f + 1, l, hf, hl => by
    simp only [gsortFuel]
    split
    · have h1 : (l.take ((l.length + 1) / 2)).length ≤ f + 1 := by
        rw [List.length_take]; omega
      have h2 : (l.drop ((l.length + 1) / 2)).length ≤ f + 1 := by
        rw [List.length_drop]; omega
      have p1 : ∀ x ∈ l.take ((l.length + 1) / 2), P x :=
        fun x hx => hl x (List.mem_of_mem_take hx)
      have p2 : ∀ x ∈ l.drop ((l.length + 1) / 2), P x :=
        fun x hx => hl x (List.mem_of_mem_drop hx)
      rw [mergeLists_filter h q hq _ _ (gsortFuel_mem f _ p1) (gsortFuel_mem f _ p2)
        (gsortFuel_sorted h f _ h1 p1), gsortFuel_filter h q hq f _ h1 p1,
        gsortFuel_filter h q hq f _ h2 p2, ← List.filter_append, List.take_append_drop]
    · rfl

theorem tied_le (h : PreorderOn P le) (a : α) (ha : P a) :
    ∀ x y, P x → P y → tied le a x = true → tied le a y = true → le x y = true := by
  intro x y px py hx hy
  simp only [tied, Bool.and_eq_true] at hx hy
  exact h.trans x a y px ha py hx.2 hy.1

theorem tied_self (h : PreorderOn P le) (a : α) (ha : P a) : tied le a a = true := by
  simp [tied, h.refl a ha]

/-- Two sorted lists with the same classes of tied elements, each class in the same
order, are equal. -/
theorem stable_unique (h : PreorderOn P le) :
    ∀ (l1 l2 : List α), (∀ x ∈ l1, P x) → (∀ x ∈ l2, P x) →
      l1.Pairwise (fun a b => le a b = true) → l2.Pairwise (fun a b => le a b = true) →
      (∀ a, P a → l1.filter (tied le a) = l2.filter (tied le a)) → l1 = l2
  | [], [], _, _, _, _, _ => rfl
  | [], z :: l2, _, p2, _, _, hf => by
    have pz : P z := p2 z (List.mem_cons_self _ _)
    have := hf z pz
    rw [List.filter_cons_of_pos (tied_self h z pz)] at this
    simp at this
  | y :: l1, [], p1, _, _, _, hf => by
    have py : P y := p1 y (List.mem_cons_self _ _)
    have := hf y py
    rw [List.filter_cons_of_pos (tied_self h y py)] at this
    simp at this
  | y :: l1, z :: l2, p1, p2, s1, s2, hf => by
    have py : P y := p1 y (List.mem_cons_self _ _)
    have pz : P z := p2 z (List.mem_cons_self _ _)
    have s1c := List.pairwise_cons.1 s1
    have s2c := List.pairwise_cons.1 s2
    have hy := hf y py
    have hz := hf z pz
    rw [List.filter_cons_of_pos (tied_self h y py)] at hy
    rw [List.filter_cons_of_pos (tied_self h z pz)] at hz
    have hzy : le z y = true := by
      have hmem : y ∈ (z :: l2).filter (tied le y) := by rw [← hy]; exact List.mem_cons_self _ _
      rcases List.mem_cons.1 (List.mem_filter.1 hmem).1 with e | hm
      · rw [e]; exact h.refl z pz
      · exact s2c.1 y hm
    have hyz : le y z = true := by
      have hmem : z ∈ (y :: l1).filter (tied le z) := by rw [hz]; exact List.mem_cons_self _ _
      rcases List.mem_cons.1 (List.mem_filter.1 hmem).1 with e | hm
      · rw [e]; exact h.refl y py
      · exact s1c.1 z hm
    have hty : tied le y z = true := by simp [tied, hzy, hyz]
    rw [List.filter_cons_of_pos hty] at hy
    have e : y = z := (List.cons.inj hy).1
    subst e
    have htail : l1 = l2 := by
      apply stable_unique h l1 l2 (fun x hx => p1 x (List.mem_cons_of_mem _ hx))
        (fun x hx => p2 x (List.mem_cons_of_mem _ hx)) s1c.2 s2c.2
      intro a pa
      have ha := hf a pa
      by_cases hta : tied le a y = true
      · rw [List.filter_cons_of_pos hta, List.filter_cons_of_pos hta] at ha
        exact (List.cons.inj ha).2
      · rw [List.filter_cons_of_neg hta, List.filter_cons_of_neg hta] at ha
        exact ha
    rw [htail]

/-- The depth bound of the functional merge sort does not matter once it is large
enough. -/
theorem gsortFuel_fuel : ∀ (f g : Nat) (l : List α), l.length ≤ f + 1 → l.length ≤ g + 1 →
    gsortFuel le f l = gsortFuel le g l
  | 0, 0, _, _, _ => rfl
  | 0, g + 1, l, hf, _ => by
    simp only [gsortFuel]
    rw [if_neg (by omega)]
  | f + 1, 0, l, _, hg => by
    simp only [gsortFuel]
    rw [if_neg (by omega)]
  | f + 1, g + 1, l, hf, hg => by
    simp only [gsortFuel]
    split
    · have h1 : (l.take ((l.length + 1) / 2)).length ≤ f + 1 := by
        rw [List.length_take]; omega
      have h2 : (l.drop ((l.length + 1) / 2)).length ≤ f + 1 := by
        rw [List.length_drop]; omega
      have h3 : (l.take ((l.length + 1) / 2)).length ≤ g + 1 := by
        rw [List.length_take]; omega
      have h4 : (l.drop ((l.length + 1) / 2)).length ≤ g + 1 := by
        rw [List.length_drop]; omega
      rw [gsortFuel_fuel f g _ h1 h3, gsortFuel_fuel f g _ h2 h4]
    · rfl

theorem gsortFuel_eq_gsort (f : Nat) (l : List α) (hf : l.length ≤ f + 1) :
    gsortFuel le f l = gsort le l :=
  gsortFuel_fuel f l.length l hf (by omega)

theorem gsort_perm (l : List α) : (gsort le l).Perm l := gsortFuel_perm _ l

theorem gsort_mem (l : List α) (hl : ∀ x ∈ l, P x) : ∀ x ∈ gsort le l, P x :=
  gsortFuel_mem _ l hl

theorem gsort_sorted (h : PreorderOn P le) (l : List α) (hl : ∀ x ∈ l, P x) :
    (gsort le l).Pairwise (fun a b => le a b = true) :=
  gsortFuel_sorted h _ l (by omega) hl

theorem gsort_filter_tied (h : PreorderOn P le) (l : List α) (hl : ∀ x ∈ l, P x) (a : α)
    (ha : P a) : (gsort le l).filter (tied le a) = l.filter (tied le a) :=
  gsortFuel_filter h _ (tied_le h a ha) _ l (by omega) hl

/-- A sorted list is a fixed point of the functional merge sort. -/
theorem gsort_of_sorted (h : PreorderOn P le) (l : List α) (hl : ∀ x ∈ l, P x)
    (hs : l.Pairwise (fun a b => le a b = true)) : gsort le l = l :=
  stable_unique h _ _ (gsort_mem l hl) hl (gsort_sorted h l hl) hs
    (fun a ha => gsort_filter_tied h l hl a ha)

/-- Filtering commutes with the functional merge sort. -/
theorem gsort_filter_comm (h : PreorderOn P le) (l : List α) (hl : ∀ x ∈ l, P x)
    (p : α → Bool) : gsort le (l.filter p) = (gsort le l).filter p := by
  have hlp : ∀ x ∈ l.filter p, P x := fun x hx => hl x (List.mem_filter.1 hx).1
  have m1 : ∀ x ∈ gsort le (l.filter p), P x := gsort_mem _ hlp
  have m2 : ∀ x ∈ (gsort le l).filter p, P x :=
    fun x hx => gsort_mem l hl x (List.mem_filter.1 hx).1
  have s1 : (gsort le (l.filter p)).Pairwise (fun a b => le a b = true) :=
    gsort_sorted h _ hlp
  have s2 : ((gsort le l).filter p).Pairwise (fun a b => le a b = true) :=
    (gsort_sorted h l hl).sublist (List.filter_sublist _)
  refine stable_unique h _ _ m1 m2 s1 s2 ?_
  intro a ha
  rw [gsort_filter_tied h _ hlp a ha, List.filter_filter, List.filter_filter]
  have e : (fun x => tied le a x && p x) = (fun x => p x && tied le a x) := by
    funext x; exact Bool.and_comm _ _
  rw [e, ← List.filter_filter, ← List.filter_filter, gsort_filter_tied h l hl a ha]

theorem mergeLists_map (f : β → α) : ∀ (xs ys : List β),
    mergeLists le (xs.map f) (ys.map f) = (mergeLists (fun a b => le (f a) (f b)) xs ys).map f
  | [], ys => by simp [mergeLists]
  | x :: xs, [] => by simp [mergeLists]
  | x :: xs, y :: ys => by
    simp only [mergeLists, List.map_cons]
    split
    · have ih := mergeLists_map f xs (y :: ys)
      simp only [List.map_cons] at ih
      rw [ih, List.map_cons]
    · have ih := mergeLists_map f (x :: xs) ys
      simp only [List.map_cons] at ih
      rw [ih, List.map_cons]

/-- The functional merge sort commutes with a map that respects the comparison. -/
theorem gsortFuel_map (f : β → α) : ∀ (n : Nat) (l : List β),
    gsortFuel le n (l.map f) = (gsortFuel (fun a b => le (f a) (f b)) n l).map f
  | 0, l => by simp [gsortFuel]
  | n + 1, l => by
    simp only [gsortFuel, List.length_map]
    split
    · rw [← List.map_take, ← List.map_drop, gsortFuel_map f n, gsortFuel_map f n,
        mergeLists_map]
    · rfl

theorem gsort_map (f : β → α) (l : List β) :
    gsort le (l.map f) = (gsort (fun a b => le (f a) (f b)) l).map f := by
  unfold gsort
  rw [List.length_map, gsortFuel_map]

end FunctionalLemmas

/-! ## The comparator is a total preorder on validated records -/

section KeyLemmas

variable {α : Type} {P : α → Prop}

theorem CmpOn.cascade {c1 c2 : α → α → Int} (h1 : CmpOn P c1) (h2 : CmpOn P c2) :
    CmpOn P (cascade c1 c2) := by
  constructor
  · intro a b pa pb
    have s1 := h1.swap a b pa pb
    have s1r := h1.swap b a pb pa
    have s2 := h2.swap a b pa pb
    unfold StudentSort.cascade
    split_ifs <;> omega
  · intro a b d pa pb pd
    have s1 := h1.swap a b pa pb
    have s1r := h1.swap b a pb pa
    have s2 := h1.swap b d pb pd
    have s2r := h1.swap d b pd pb
    have s3 := h1.swap a d pa pd
    have s3r := h1.swap d a pd pa
    have t1 := h1.trans a b d pa pb pd
    have t2 := h1.trans d a b pd pa pb
    have t3 := h1.trans b d a pb pd pa
    have t4 := h1.trans b a d pb pa pd
    have t5 := h1.trans a d b pa pd pb
    have t6 := h1.trans d b a pd pb pa
    have u := h2.trans a b d pa pb pd
    unfold StudentSort.cascade
    split_ifs <;> omega

theorem CmpOn.congr {c c2 : α → α → Int} (h : CmpOn P c)
    (e : ∀ a b, P a → P b → c2 a b = c a b) : CmpOn P c2 := by
  constructor
  · intro a b pa pb
    rw [e a b pa pb, e b a pb pa]
    exact h.swap a b pa pb
  · intro a b d pa pb pd
    rw [e a b pa pb, e b d pb pd, e a d pa pd]
    exact h.trans a b d pa pb pd

theorem CmpOn.mono {Q : α → Prop} {c : α → α → Int} (h : CmpOn P c)
    (hq : ∀ a, Q a → P a) : CmpOn Q c :=
  ⟨fun a b qa qb => h.swap a b (hq a qa) (hq b qb),
   fun a b d qa qb qd => h.trans a b d (hq a qa) (hq b qb) (hq d qd)⟩

theorem CmpOn.ofKey (k : α → Int) : CmpOn P (fun a b => k a - k b) :=
  ⟨fun a b _ _ => by constructor <;> intro h <;> omega,
   fun a b d _ _ _ h1 h2 => by
     show k a - k d ≤ 0
     have h1 : k a - k b ≤ 0 := h1
     have h2 : k b - k d ≤ 0 := h2
     omega⟩

end KeyLemmas

theorem tolower_nonneg (c : Char) : 0 ≤ tolower c := by
  unfold tolower; split <;> omega

theorem tolower_eq_zero (c : Char) : tolower c = 0 ↔ c.toNat = 0 := by
  unfold tolower; split <;> omega

theorem strcasecmp_swap : ∀ (s t : List Char), strcasecmp t s = - strcasecmp s t
  | [], [] => by simp [strcasecmp]
  | [], d :: _ => by simp [strcasecmp]
  | c :: _, [] => by simp [strcasecmp]
  | c :: cs, d :: ds => by
    have ih := strcasecmp_swap cs ds
    have hc := tolower_eq_zero c
    have hd := tolower_eq_zero d
    simp only [strcasecmp]
    split_ifs <;> omega

theorem strcasecmp_trans : ∀ (s t u : List Char),
    strcasecmp s t ≤ 0 → strcasecmp t u ≤ 0 → strcasecmp s u ≤ 0
  | [], _, [], _, _ => by simp [strcasecmp]
  | [], _, z :: _, _, _ => by
    have := tolower_nonneg z
    simp only [strcasecmp]; omega
  | x :: xs, [], [], h1, _ => h1
  | x :: xs, [], z :: zs, h1, _ => by
    have hx := tolower_nonneg x
    have hz := tolower_nonneg z
    have hx0 := tolower_eq_zero x
    simp only [strcasecmp] at h1 ⊢
    split_ifs <;> omega
  | x :: xs, y :: ys, [], h1, h2 => by
    have hx := tolower_nonneg x
    have hy := tolower_nonneg y
    have hx0 := tolower_eq_zero x
    have hy0 := tolower_eq_zero y
    simp only [strcasecmp] at h1 h2 ⊢
    split_ifs at h1 <;> omega
  | x :: xs, y :: ys, z :: zs, h1, h2 => by
    have hx := tolower_nonneg x
    have hy := tolower_nonneg y
    have hz := tolower_nonneg z
    have hx0 := tolower_eq_zero x
    have hy0 := tolower_eq_zero y
    have hz0 := tolower_eq_zero z
    have ih := strcasecmp_trans xs ys zs
    simp only [strcasecmp] at h1 h2 ⊢
    split_ifs at h1 h2 ⊢ <;> omega

theorem cmpOn_strcasecmp {P : Student → Prop} (k : Student → List Char) :
    CmpOn P (fun a b => strcasecmp (k a) (k b)) :=
  ⟨fun a b _ _ => by
     have := strcasecmp_swap (k a) (k b)
     constructor <;> intro h <;> omega,
   fun a b d _ _ _ h1 h2 => strcasecmp_trans _ _ _ h1 h2⟩

theorem cmpOn_cmpToefl {P : Student → Prop} : CmpOn P cmpToefl := by
  constructor
  · intro a b _ _
    unfold cmpToefl
    split_ifs <;> omega
  · intro a b d _ _ _
    unfold cmpToefl
    split_ifs <;> omega

theorem cmpOn_cmpStatus {P : Student → Prop} : CmpOn P cmpStatus := by
  have h := CmpOn.ofKey (P := P) (fun a : Student => - boolToInt (a.status == 'D'))
  refine h.congr ?_
  intro a b _ _
  unfold cmpStatus
  omega

theorem gpa_ne_iff {x y : CFloat} (hx : GpaInRange x) (hy : GpaInRange y) :
    CFloat.ne x y = true ↔ x.value ≠ y.value := by
  obtain ⟨hx1, hx2, -, -⟩ := hx
  obtain ⟨hy1, hy2, -, -⟩ := hy
  simp [CFloat.ne, hx1, hx2, hy1, hy2]

theorem gpa_lt_iff {x y : CFloat} (hx : GpaInRange x) (hy : GpaInRange y) :
    CFloat.lt x y = true ↔ x.value < y.value := by
  obtain ⟨hx1, hx2, -, -⟩ := hx
  obtain ⟨hy1, hy2, -, -⟩ := hy
  simp [CFloat.lt, hx1, hx2, hy1, hy2]

theorem cmpGpa_neg {a b : Student} (ha : GpaInRange a.gpa) (hb : GpaInRange b.gpa) :
    cmpGpa a b < 0 ↔ b.gpa.value < a.gpa.value := by
  have h1 := gpa_ne_iff ha hb
  have h2 := gpa_lt_iff ha hb
  unfold cmpGpa
  by_cases hne : CFloat.ne a.gpa b.gpa = true
  · have hv := h1.1 hne
    by_cases hlt : CFloat.lt a.gpa b.gpa = true
    · have := h2.1 hlt
      simp only [hne, hlt, if_true]
      constructor
      · intro h; omega
      · intro h; exact absurd (lt_trans this h) (lt_irrefl _)
    · have hnl : ¬ a.gpa.value < b.gpa.value := fun h => hlt (h2.2 h)
      simp only [hne, hlt, if_true]
      constructor
      · intro _; exact lt_of_le_of_ne (not_lt.1 hnl) (Ne.symm hv)
      · intro _; simp
  · have hv : a.gpa.value = b.gpa.value := by
      by_contra hc; exact hne (h1.2 hc)
    simp only [hne]
    constructor
    · intro h; simp at h
    · intro h; rw [hv] at h; exact absurd h (lt_irrefl _)

theorem cmpGpa_pos {a b : Student} (ha : GpaInRange a.gpa) (hb : GpaInRange b.gpa) :
    0 < cmpGpa a b ↔ a.gpa.value < b.gpa.value := by
  have h1 := gpa_ne_iff ha hb
  have h2 := gpa_lt_iff ha hb
  unfold cmpGpa
  by_cases hne : CFloat.ne a.gpa b.gpa = true
  · by_cases hlt : CFloat.lt a.gpa b.gpa = true
    · have := h2.1 hlt
      simp only [hne, hlt, if_true]
      constructor
      · intro _; exact this
      · intro _; omega
    · have hnl : ¬ a.gpa.value < b.gpa.value := fun h => hlt (h2.2 h)
      simp only [hne, hlt, if_true]
      constructor
      · intro h; simp at h
      · intro h; exact absurd h hnl
  · have hv : a.gpa.value = b.gpa.value := by
      by_contra hc; exact hne (h1.2 hc)
    simp only [hne]
    constructor
    · intro h; simp at h
    · intro h; rw [hv] at h; exact absurd h (lt_irrefl _)

theorem cmpOn_cmpGpa : CmpOn (fun s : Student => GpaInRange s.gpa) cmpGpa := by
  constructor
  · intro a b pa pb
    rw [cmpGpa_neg pa pb, cmpGpa_pos pb pa]
  · intro a b d pa pb pd h1 h2
    have n1 := cmpGpa_pos pa pb
    have n2 := cmpGpa_pos pb pd
    have n3 := cmpGpa_pos pa pd
    by_contra hc
    have h3 : a.gpa.value < d.gpa.value := n3.1 (by omega)
    have h4 : ¬ a.gpa.value < b.gpa.value := fun h => by have := n1.2 h; omega
    have h5 : ¬ b.gpa.value < d.gpa.value := fun h => by have := n2.2 h; omega
    exact absurd (lt_of_lt_of_le h3 (le_trans (not_lt.1 h5) (not_lt.1 h4))) (lt_irrefl _)

theorem monthToNumLoop_range (m : List Char) : ∀ (tbl : List (List Char)) (i : Int),
    monthToNumLoop m tbl i = -1 ∨
      (i + 1 ≤ monthToNumLoop m tbl i ∧ monthToNumLoop m tbl i ≤ i + tbl.length)
  | [], _ => Or.inl rfl
  | t :: tbl, i => by
    have ih := monthToNumLoop_range m tbl (i + 1)
    simp only [monthToNumLoop, List.length_cons, Nat.cast_add, Nat.cast_one]
    split_ifs
    · right; omega
    · omega

theorem monthToNum_range (m : List Char) :
    monthToNum m = -1 ∨ (1 ≤ monthToNum m ∧ monthToNum m ≤ 12) := by
  have h := monthToNumLoop_range m months 0
  have hl : months.length = 12 := rfl
  unfold monthToNum
  rw [hl] at h
  omega

theorem wrapInt_small (x : Int) (h1 : -2147483648 ≤ x) (h2 : x < 2147483648) :
    wrapInt x = x := by
  unfold wrapInt; omega

theorem cascade_if {α : Type} (c1 c2 : α → α → Int) (a b : α) (cond : Prop) [Decidable cond]
    (x rest : Int) (h1 : cond ↔ c1 a b ≠ 0) (hx : cond → x = c1 a b) (hr : rest = c2 a b) :
    (if cond then x else rest) = cascade c1 c2 a b := by
  unfold cascade
  by_cases hc : cond
  · rw [if_pos hc, if_pos (h1.1 hc), hx hc]
  · rw [if_neg hc, if_neg (fun h => hc (h1.2 h)), hr]

/-- On validated records `compareStudents` is the cascade of its eight keys. -/
theorem compareStudents_eq_cmpKeys (a b : Student) (ha : Validated a) (hb : Validated b) :
    compareStudents a b = cmpKeys a b := by
  obtain ⟨-, ha1, ha2, ha3, ha4, -, -⟩ := ha
  obtain ⟨-, hb1, hb2, hb3, hb4, -, -⟩ := hb
  have hma := monthToNum_range a.month
  have hmb := monthToNum_range b.month
  have w1 : wrapInt (a.year - b.year) = a.year - b.year := wrapInt_small _ (by omega) (by omega)
  have w2 : wrapInt (monthToNum a.month - monthToNum b.month)
      = monthToNum a.month - monthToNum b.month := wrapInt_small _ (by omega) (by omega)
  have w3 : wrapInt (a.day - b.day) = a.day - b.day := wrapInt_small _ (by omega) (by omega)
  unfold compareStudents cmpKeys
  refine cascade_if _ _ a b _ _ _ ?_ (fun _ => w1) ?_
  · unfold cmpYear; constructor <;> intro h <;> omega
  refine cascade_if _ _ a b _ _ _ ?_ (fun _ => w2) ?_
  · rw [w2]; exact Iff.rfl
  refine cascade_if _ _ a b _ _ _ ?_ (fun _ => w3) ?_
  · unfold cmpDay; constructor <;> intro h <;> omega
  refine cascade_if _ _ a b _ _ _ Iff.rfl (fun _ => rfl) ?_
  refine cascade_if _ _ a b _ _ _ Iff.rfl (fun _ => rfl) ?_
  refine cascade_if cmpGpa _ a b _ _ _ ?_ ?_ ?_
  · unfold cmpGpa; split_ifs <;> simp_all
  · intro hc; unfold cmpGpa; rw [if_pos hc]
  refine cascade_if cmpToefl _ a b _ _ _ ?_ ?_ rfl
  · unfold cmpToefl; split_ifs <;> simp_all
  · intro hc; unfold cmpToefl; rw [if_pos hc]

theorem cmpOn_cmpKeys : CmpOn Validated cmpKeys := by
  have hg : CmpOn Validated cmpGpa := cmpOn_cmpGpa.mono (fun a ha => ha.2.2.2.2.2.1)
  exact (CmpOn.ofKey _).cascade ((CmpOn.ofKey _).cascade ((CmpOn.ofKey _).cascade
    ((cmpOn_strcasecmp _).cascade ((cmpOn_strcasecmp _).cascade
      (hg.cascade (cmpOn_cmpToefl.cascade cmpOn_cmpStatus))))))

/-- On validated records `compareStudents` has the sign of a total preorder. -/
theorem cmpOn_compareStudents : CmpOn Validated compareStudents :=
  cmpOn_cmpKeys.congr compareStudents_eq_cmpKeys

/-- The test `compareStudents(x, y) <= 0` is a total preorder on validated records. -/
theorem preorderOn_leS : PreorderOn Validated leS := by
  constructor
  · intro a b pa pb
    have := cmpOn_compareStudents.swap b a pb pa
    simp only [leS, decide_eq_true_eq]
    omega
  · intro a b d pa pb pd h1 h2
    simp only [leS, decide_eq_true_eq] at h1 h2 ⊢
    exact cmpOn_compareStudents.trans a b d pa pb pd h1 h2

/-! ## The in-place merge sort computes the functional one -/

theorem rd_natCast (arr : List Student) (i : Nat) : rd arr (i : Int) = arr.getD i default := by
  simp [rd]

theorem wr_length_append (A : List Student) (b v : Student) (rest : List Student) :
    wr (A ++ b :: rest) (A.length : Int) v = A ++ v :: rest := by
  simp [wr]

theorem rd_drop (T : List Student) (i : Nat) (h : i < T.length) :
    T.drop i = rd T (i : Int) :: T.drop (i + 1) := by
  rw [rd_natCast, List.getD_eq_getElem _ _ h]
  exact List.drop_eq_getElem_cons h

/-- The copy loop reads a run of the array. -/
theorem copyRange_append (A T C : List Student) :
    copyRange (A ++ T ++ C) (A.length : Int) (T.length : Int) = T := by
  unfold copyRange
  apply List.ext_getElem
  · simp
  · intro n h1 h2
    have e : (A.length : Int) + (n : Int) = ((A.length + n : Nat) : Int) := by push_cast; rfl
    simp only [List.getElem_map, List.getElem_range, e, rd_natCast]
    rw [List.append_assoc, List.getD_append_right _ _ _ _ (by omega)]
    simp only [Nat.add_sub_cancel_left]
    rw [List.getD_append _ _ _ _ h2, List.getD_eq_getElem _ _ h2]

/-- A drain loop copies the rest of its buffer over the next cells of the array. -/
theorem drainLoop_append (T : List Student) : ∀ (fuel : Nat) (A B C : List Student) (i : Nat),
    i ≤ T.length → B.length = T.length - i → T.length - i ≤ fuel →
    drainLoop T (T.length : Int) fuel (A ++ B ++ C) (i : Int) (A.length : Int)
      = (A ++ T.drop i ++ C, (T.length : Int), ((A.length + (T.length - i) : Nat) : Int))
  | 0, A, B, C, i, hi, hB, hf => by
    have hi2 : i = T.length := by omega
    have hB2 : B = [] := List.length_eq_zero.1 (by omega)
    subst hB2
    simp [drainLoop, hi2]
  | fuel + 1, A, B, C, i, hi, hB, hf => by
    by_cases hlt : i < T.length
    · have hc : (i : Int) < (T.length : Int) := by omega
      obtain ⟨b, B2, rfl⟩ : ∃ b B2, B = b :: B2 := by
        cases B with
        | nil => simp at hB; omega
        | cons b B2 => exact ⟨b, B2, rfl⟩
      simp only [List.length_cons] at hB
      simp only [drainLoop, if_pos hc]
      have e1 : A ++ b :: B2 ++ C = A ++ b :: (B2 ++ C) := by simp
      have e2 : A ++ rd T (i : Int) :: (B2 ++ C) = (A ++ [rd T (i : Int)]) ++ B2 ++ C := by simp
      have e3 : (A.length : Int) + 1 = ((A ++ [rd T (i : Int)]).length : Int) := by simp
      have e4 : (i : Int) + 1 = ((i + 1 : Nat) : Int) := by push_cast; rfl
      rw [e1, wr_length_append, e2, e3, e4,
        drainLoop_append T fuel _ B2 C (i + 1) (by omega) (by omega) (by omega)]
      rw [rd_drop T i hlt]
      simp only [List.length_append, List.length_singleton, List.append_assoc,
        List.singleton_append, Prod.mk.injEq, true_and]
      congr 1
      omega
    · have hi2 : i = T.length := by omega
      have hB2 : B = [] := List.length_eq_zero.1 (by omega)
      subst hB2
      have hc : ¬ (i : Int) < (T.length : Int) := by omega
      simp only [drainLoop, if_neg hc]
      simp [hi2]

/-- The main loop of `merge`, given at least as many iterations as there are elements
left in the two buffers, stops because its condition fails. -/
theorem mergeLoop_exit (L R : List Student) (n1 n2 : Int) :
    ∀ (fuel : Nat) (arr : List Student) (i j k : Int),
      (n1 - i).toNat + (n2 - j).toNat ≤ fuel →
      ¬ ((mergeLoop L R n1 n2 fuel arr i j k).2.1 < n1 ∧
         (mergeLoop L R n1 n2 fuel arr i j k).2.2.1 < n2)
  | 0, arr, i, j, k, hf => by
    simp only [mergeLoop]
    omega
  | fuel + 1, arr, i, j, k, hf => by
    simp only [mergeLoop]
    by_cases hc : i < n1 ∧ j < n2
    · rw [if_pos hc]
      split
      · exact mergeLoop_exit L R n1 n2 fuel _ (i + 1) j (k + 1) (by omega)
      · exact mergeLoop_exit L R n1 n2 fuel _ i (j + 1) (k + 1) (by omega)
    · rw [if_neg hc]
      exact hc

/-- A drain loop, given at least as many iterations as there are elements left in its
buffer, stops because its condition fails. -/
theorem drainLoop_exit (T : List Student) (n : Int) :
    ∀ (fuel : Nat) (arr : List Student) (i k : Int), (n - i).toNat ≤ fuel →
      ¬ (drainLoop T n fuel arr i k).2.1 < n
  | 0, arr, i, k, hf => by
    simp only [drainLoop]
    omega
  | fuel + 1, arr, i, k, hf => by
    simp only [drainLoop]
    by_cases hc : i < n
    · rw [if_pos hc]
      exact drainLoop_exit T n fuel _ (i + 1) (k + 1) (by omega)
    · rw [if_neg hc]
      exact hc

theorem merge_eq_drainBoth (arr : List Student) (left mid right : Int) :
    merge arr left mid right =
      drainBoth (copyRange arr left (mid - left + 1)) (copyRange arr (mid + 1) (right - mid))
        (mid - left + 1) (right - mid)
        (mergeLoop (copyRange arr left (mid - left + 1)) (copyRange arr (mid + 1) (right - mid))
          (mid - left + 1) (right - mid) ((mid - left + 1) + (right - mid)).toNat arr 0 0 left) :=
  rfl

/-- The two drain loops append what is left of both buffers. -/
theorem drainBoth_append (L R A B1 B2 C : List Student) (i j : Nat)
    (hi : i ≤ L.length) (hj : j ≤ R.length)
    (h1 : B1.length = L.length - i) (h2 : B2.length = R.length - j) :
    drainBoth L R (L.length : Int) (R.length : Int)
        (A ++ B1 ++ B2 ++ C, (i : Int), (j : Int), (A.length : Int))
      = A ++ L.drop i ++ R.drop j ++ C := by
  have f1 : ((L.length : Int) - (i : Int)).toNat = L.length - i := by omega
  have f2 : ((R.length : Int) - (j : Int)).toNat = R.length - j := by omega
  have e1 : A ++ B1 ++ B2 ++ C = A ++ B1 ++ (B2 ++ C) := by simp
  have e2 : A ++ L.drop i ++ (B2 ++ C) = (A ++ L.drop i) ++ B2 ++ C := by simp
  have e3 : ((A.length + (L.length - i) : Nat) : Int) = ((A ++ L.drop i).length : Int) := by
    simp
  simp only [drainBoth, f1, f2]
  rw [e1, drainLoop_append L _ A B1 (B2 ++ C) i hi h1 (le_refl _)]
  simp only []
  rw [e2, e3, drainLoop_append R _ (A ++ L.drop i) B2 C j hj h2 (le_refl _)]

/-- The loops of `merge`, started anywhere in the two buffers, write the functional
merge of what is left of them. -/
theorem mergeLoop_append (L R : List Student) :
    ∀ (fuel : Nat) (A B C : List Student) (i j : Nat), i ≤ L.length → j ≤ R.length →
      B.length = (L.length - i) + (R.length - j) → (L.length - i) + (R.length - j) ≤ fuel →
      drainBoth L R (L.length : Int) (R.length : Int)
          (mergeLoop L R (L.length : Int) (R.length : Int) fuel (A ++ B ++ C)
            (i : Int) (j : Int) (A.length : Int))
        = A ++ mergeLists leS (L.drop i) (R.drop j) ++ C
  | 0, A, B, C, i, j, hi, hj, hB, hf => by
    have hi2 : i = L.length := by omega
    have hj2 : j = R.length := by omega
    have hB2 : B = [] := List.length_eq_zero.1 (by omega)
    subst hB2
    have := drainBoth_append L R A [] [] C i j hi hj (by simp; omega) (by simp; omega)
    simp only [List.append_nil] at this
    simp only [mergeLoop, List.append_nil, this]
    simp [hi2, hj2, mergeLists]
  | fuel + 1, A, B, C, i, j, hi, hj, hB, hf => by
    by_cases hc : (i : Int) < (L.length : Int) ∧ (j : Int) < (R.length : Int)
    · have hi1 : i < L.length := by omega
      have hj1 : j < R.length := by omega
      obtain ⟨b, B2, rfl⟩ : ∃ b B2, B = b :: B2 := by
        cases B with
        | nil => simp at hB; omega
        | cons b B2 => exact ⟨b, B2, rfl⟩
      simp only [List.length_cons] at hB
      have e1 : A ++ b :: B2 ++ C = A ++ b :: (B2 ++ C) := by simp
      have e4 : (i : Int) + 1 = ((i + 1 : Nat) : Int) := by push_cast; rfl
      have e5 : (j : Int) + 1 = ((j + 1 : Nat) : Int) := by push_cast; rfl
      simp only [mergeLoop, if_pos hc]
      rw [rd_drop L i hi1, rd_drop R j hj1]
      by_cases hle : compareStudents (rd L (i : Int)) (rd R (j : Int)) ≤ 0
      · have hleS : leS (rd L (i : Int)) (rd R (j : Int)) = true := by simp [leS, hle]
        have e2 : A ++ rd L (i : Int) :: (B2 ++ C) = (A ++ [rd L (i : Int)]) ++ B2 ++ C := by
          simp
        have e3 : (A.length : Int) + 1 = ((A ++ [rd L (i : Int)]).length : Int) := by simp
        rw [if_pos hle, e1, wr_length_append, e2, e3, e4,
          mergeLoop_append L R fuel _ B2 C (i + 1) j (by omega) hj (by omega) (by omega)]
        simp only [mergeLists, hleS, if_true]
        rw [← rd_drop R j hj1]
        simp
      · have hleS : leS (rd L (i : Int)) (rd R (j : Int)) = false := by simp [leS, hle]
        have e2 : A ++ rd R (j : Int) :: (B2 ++ C) = (A ++ [rd R (j : Int)]) ++ B2 ++ C := by
          simp
        have e3 : (A.length : Int) + 1 = ((A ++ [rd R (j : Int)]).length : Int) := by simp
        rw [if_neg hle, e1, wr_length_append, e2, e3, e5,
          mergeLoop_append L R fuel _ B2 C i (j + 1) hi (by omega) (by omega) (by omega)]
        simp only [mergeLists, hleS]
        rw [← rd_drop L i hi1]
        simp
    · simp only [mergeLoop, if_neg hc]
      have e1 : A ++ B ++ C = A ++ B.take (L.length - i) ++ B.drop (L.length - i) ++ C := by
        rw [List.append_assoc A (B.take (L.length - i)), List.take_append_drop]
      rw [e1, drainBoth_append L R A _ _ C i j hi hj
        (by rw [List.length_take]; omega) (by rw [List.length_drop]; omega)]
      have hor : i = L.length ∨ j = R.length := by omega
      rcases hor with h | h
      · subst h; simp [mergeLists]
      · subst h; simp [mergeLists_nil_right]

/-- `merge` replaces two adjacent runs of the array by their functional merge. -/
theorem merge_append (A L R C : List Student) :
    merge (A ++ L ++ R ++ C) (A.length : Int) ((A.length : Int) + (L.length : Int) - 1)
        ((A.length : Int) + (L.length : Int) + (R.length : Int) - 1)
      = A ++ mergeLists leS L R ++ C := by
  have n1 : (A.length : Int) + (L.length : Int) - 1 - (A.length : Int) + 1 = (L.length : Int) := by
    omega
  have n2 : (A.length : Int) + (L.length : Int) + (R.length : Int) - 1
      - ((A.length : Int) + (L.length : Int) - 1) = (R.length : Int) := by omega
  have m1 : (A.length : Int) + (L.length : Int) - 1 + 1 = ((A ++ L).length : Int) := by
    simp
  have c1 : copyRange (A ++ L ++ R ++ C) (A.length : Int) (L.length : Int) = L := by
    have := copyRange_append A L (R ++ C)
    simpa using this
  have c2 : copyRange (A ++ L ++ R ++ C) ((A ++ L).length : Int) (R.length : Int) = R :=
    copyRange_append (A ++ L) R C
  have fu : ((L.length : Int) + (R.length : Int)).toNat = L.length + R.length := by omega
  rw [merge_eq_drainBoth, n1, n2, m1, c1, c2, fu]
  have e : A ++ L ++ R ++ C = A ++ (L ++ R) ++ C := by simp
  have z : (0 : Int) = ((0 : Nat) : Int) := rfl
  rw [e, z, mergeLoop_append L R _ A (L ++ R) C 0 0 (by omega) (by omega) (by simp) (by omega)]
  simp

theorem gsortFuel_length (f : Nat) (l : List Student) :
    (gsortFuel leS f l).length = l.length :=
  (gsortFuel_perm f l).length_eq

/-- With any depth bound, the in-place merge sort of a run of the array is the
functional merge sort of that run with the same bound. -/
theorem mergeSortFuel_append : ∀ (f : Nat) (A S C : List Student),
    mergeSortFuel f (A ++ S ++ C) (A.length : Int) ((A.length : Int) + (S.length : Int) - 1)
      = A ++ gsortFuel leS f S ++ C
  | 0, A, S, C => by simp [mergeSortFuel, gsortFuel]
  | f + 1, A, S, C => by
    by_cases h2 : 2 ≤ S.length
    · have hc : (A.length : Int) < (A.length : Int) + (S.length : Int) - 1 := by omega
      simp only [mergeSortFuel, if_pos hc, gsortFuel, if_pos h2]
      have hS : S = S.take ((S.length + 1) / 2) ++ S.drop ((S.length + 1) / 2) :=
        (List.take_append_drop _ _).symm
      have l1 : (S.take ((S.length + 1) / 2)).length = (S.length + 1) / 2 := by
        rw [List.length_take]; omega
      have l2 : (S.drop ((S.length + 1) / 2)).length = S.length - (S.length + 1) / 2 := by
        rw [List.length_drop]
      generalize S.take ((S.length + 1) / 2) = S1 at hS l1
      generalize S.drop ((S.length + 1) / 2) = S2 at hS l2
      have g1 := gsortFuel_length f S1
      have g2 := gsortFuel_length f S2
      have hd : ((A.length : Int) + (S.length : Int) - 1 - (A.length : Int)).tdiv 2
          = ((A.length : Int) + (S.length : Int) - 1 - (A.length : Int)) / 2 :=
        Int.tdiv_eq_ediv (by omega) (by omega)
      have hmid : (A.length : Int)
          + ((A.length : Int) + (S.length : Int) - 1 - (A.length : Int)).tdiv 2
          = (A.length : Int) + (S1.length : Int) - 1 := by
        rw [hd]; omega
      have hmid1 : (A.length : Int) + (S1.length : Int) - 1 + 1
          = ((A ++ gsortFuel leS f S1).length : Int) := by
        rw [List.length_append, g1]; push_cast; omega
      have hright : (A.length : Int) + (S.length : Int) - 1
          = ((A ++ gsortFuel leS f S1).length : Int) + (S2.length : Int) - 1 := by
        rw [List.length_append, g1]; push_cast; omega
      have e1 : A ++ S ++ C = A ++ S1 ++ (S2 ++ C) := by rw [hS]; simp
      have e2 : A ++ gsortFuel leS f S1 ++ (S2 ++ C) = (A ++ gsortFuel leS f S1) ++ S2 ++ C := by
        simp
      have hmid2 : (A.length : Int) + (S1.length : Int) - 1
          = (A.length : Int) + ((gsortFuel leS f S1).length : Int) - 1 := by rw [g1]
      have hright2 : (A.length : Int) + (S.length : Int) - 1
          = (A.length : Int) + ((gsortFuel leS f S1).length : Int)
            + ((gsortFuel leS f S2).length : Int) - 1 := by
        rw [g1, g2]; omega
      rw [hmid, e1, mergeSortFuel_append f A S1 (S2 ++ C), hmid1, e2]
      rw [hright, mergeSortFuel_append f (A ++ gsortFuel leS f S1) S2 C, ← hright]
      rw [hmid2, hright2]
      exact merge_append A (gsortFuel leS f S1) (gsortFuel leS f S2) C
    · have hc : ¬ (A.length : Int) < (A.length : Int) + (S.length : Int) - 1 := by omega
      simp only [mergeSortFuel, if_neg hc, gsortFuel, if_neg h2]

/-- The depth bound of `mergeSortFuel` does not matter once it is at least
`right - left`. -/
theorem mergeSortFuel_fuel : ∀ (f g : Nat) (arr : List Student) (left right : Int),
    (right - left).toNat ≤ f → (right - left).toNat ≤ g →
    mergeSortFuel f arr left right = mergeSortFuel g arr left right
  | 0, 0, _, _, _, _, _ => rfl
  | 0, g + 1, arr, left, right, hf, _ => by
    have hc : ¬ left < right := by omega
    simp only [mergeSortFuel, if_neg hc]
  | f + 1, 0, arr, left, right, _, hg => by
    have hc : ¬ left < right := by omega
    simp only [mergeSortFuel, if_neg hc]
  | f + 1, g + 1, arr, left, right, hf, hg => by
    by_cases hc : left < right
    · have hd : (right - left).tdiv 2 = (right - left) / 2 :=
        Int.tdiv_eq_ediv (by omega) (by omega)
      simp only [mergeSortFuel, if_pos hc, hd]
      have a1 : (left + (right - left) / 2 - left).toNat ≤ f := by omega
      have a2 : (left + (right - left) / 2 - left).toNat ≤ g := by omega
      have b1 : (right - (left + (right - left) / 2 + 1)).toNat ≤ f := by omega
      have b2 : (right - (left + (right - left) / 2 + 1)).toNat ≤ g := by omega
      rw [mergeSortFuel_fuel f g arr left _ a1 a2, mergeSortFuel_fuel f g _ _ right b1 b2]
    · simp only [mergeSortFuel, if_neg hc]

/-- The recursion equation of the source: `mergeSort` sorts the two halves and merges
them; the depth bound of the embedding is never the reason it stops. -/
theorem mergeSort_eq (arr : List Student) (left right : Int) :
    mergeSort arr left right =
      if left < right then
        merge (mergeSort (mergeSort arr left (left + (right - left).tdiv 2))
          (left + (right - left).tdiv 2 + 1) right) left (left + (right - left).tdiv 2) right
      else arr := by
  unfold mergeSort
  by_cases hc : left < right
  · have hd : (right - left).tdiv 2 = (right - left) / 2 :=
      Int.tdiv_eq_ediv (by omega) (by omega)
    obtain ⟨n, hn⟩ : ∃ n, (right - left).toNat = n + 1 := ⟨(right - left).toNat - 1, by omega⟩
    rw [hn, if_pos hc]
    simp only [mergeSortFuel, if_pos hc, hd]
    rw [mergeSortFuel_fuel n _ arr left _ (by omega) (le_refl _),
      mergeSortFuel_fuel n _ _ _ right (by omega) (le_refl _)]
  · rw [if_neg hc]
    cases h : (right - left).toNat with
    | zero => rfl
    | succ n => simp only [mergeSortFuel, if_neg hc]

/-- `mergeSort` on a run of the array: the run is replaced by its functional merge
sort and the rest of the array is unchanged. -/
theorem mergeSort_append (A S C : List Student) :
    mergeSort (A ++ S ++ C) (A.length : Int) ((A.length : Int) + (S.length : Int) - 1)
      = A ++ gsort leS S ++ C := by
  unfold mergeSort
  rw [mergeSortFuel_append, gsortFuel_eq_gsort _ S (by omega)]

/-- The driver's sort of the whole array is the functional merge sort. -/
theorem sortAll_eq_gsort (xs : List Student) : sortAll xs = gsort leS xs := by
  have h := mergeSort_append [] xs []
  simp only [List.nil_append, List.append_nil, List.length_nil, Nat.cast_zero, zero_add] at h
  exact h

theorem sortAll_sorted (xs : List Student) (hv : ∀ s ∈ xs, Validated s) :
    (sortAll xs).Pairwise (fun a b => leS a b = true) := by
  rw [sortAll_eq_gsort]
  exact gsort_sorted preorderOn_leS xs hv

theorem sortAll_perm (xs : List Student) : (sortAll xs).Perm xs := by
  rw [sortAll_eq_gsort]
  exact gsort_perm xs

theorem sortAll_validated (xs : List Student) (hv : ∀ s ∈ xs, Validated s) :
    ∀ s ∈ sortAll xs, Validated s :=
  fun s hs => hv s ((sortAll_perm xs).mem_iff.1 hs)

theorem tagPositions_snd (arr : List Student) : (tagPositions arr).map Prod.snd = arr := by
  unfold tagPositions
  apply List.ext_getElem
  · simp
  · intro n h1 h2
    simp only [List.map_map, List.getElem_map, List.getElem_range, Function.comp_apply,
      rd_natCast]
    exact List.getD_eq_getElem _ _ h2

theorem tagPositions_fst (arr : List Student) :
    (tagPositions arr).map Prod.fst = List.range arr.length := by
  unfold tagPositions
  rw [List.map_map]
  exact List.map_id _

theorem tagPositions_mem (arr : List Student) (p : Nat × Student) (hp : p ∈ tagPositions arr) :
    p.1 < arr.length ∧ p.2 = rd arr (p.1 : Int) := by
  unfold tagPositions at hp
  obtain ⟨k, hk, rfl⟩ := List.mem_map.1 hp
  exact ⟨List.mem_range.1 hk, rfl⟩

theorem rd_mem (arr : List Student) (k : Nat) (hk : k < arr.length) : rd arr (k : Int) ∈ arr := by
  rw [rd_natCast, List.getD_eq_getElem _ _ hk]
  exact List.getElem_mem _

theorem pair_sublist_range (i j n : Nat) (hij : i < j) (hj : j < n) :
    [i, j].Sublist (List.range n) := by
  have hsub : [i, j] ⊆ List.range n := by
    intro x hx
    simp only [List.mem_cons, List.mem_singleton, List.not_mem_nil, or_false] at hx
    rw [List.mem_range]
    omega
  have hnd : [i, j].Nodup := by
    simp only [List.nodup_cons, List.mem_singleton, List.not_mem_nil, not_false_eq_true,
      List.nodup_nil, and_true]
    omega
  have hs1 : [i, j].Sorted (· < ·) := by
    simp [List.Sorted, hij]
  exact List.sublist_of_subperm_of_sorted (hnd.subperm hsub) hs1 (List.sorted_lt_range n)

/-- The sort of the whole array, read through position tags: the functional merge sort
of the tagged array, compared on the records, has the sorted array as its records. -/
theorem sortAll_tagged (arr : List Student) :
    sortAll arr
      = (gsort (fun p q : Nat × Student => leS p.2 q.2) (tagPositions arr)).map Prod.snd := by
  rw [sortAll_eq_gsort, ← gsort_map Prod.snd (tagPositions arr), tagPositions_snd]

theorem preorderOn_tagged :
    PreorderOn (fun p : Nat × Student => Validated p.2)
      (fun p q : Nat × Student => leS p.2 q.2) :=
  ⟨fun a b pa pb => preorderOn_leS.total a.2 b.2 pa pb,
   fun a b c pa pb pc => preorderOn_leS.trans a.2 b.2 c.2 pa pb pc⟩

/-! ## The comparator against the specification's cascade -/

theorem SignIs.lt_iff {z : Int} {o : Ordering} (h : SignIs z o) : z < 0 ↔ o = Ordering.lt := by
  rcases h with ⟨h1, h2⟩ | ⟨h1, h2⟩ | ⟨h1, h2⟩ <;> subst h2 <;> simp <;> omega

theorem SignIs.eq_iff {z : Int} {o : Ordering} (h : SignIs z o) : z = 0 ↔ o = Ordering.eq := by
  rcases h with ⟨h1, h2⟩ | ⟨h1, h2⟩ | ⟨h1, h2⟩ <;> subst h2 <;> simp <;> omega

theorem SignIs.gt_iff {z : Int} {o : Ordering} (h : SignIs z o) : 0 < z ↔ o = Ordering.gt := by
  rcases h with ⟨h1, h2⟩ | ⟨h1, h2⟩ | ⟨h1, h2⟩ <;> subst h2 <;> simp <;> omega

theorem signIs_sub (x y : Int) : SignIs (x - y) (ascending x y) := by
  unfold SignIs ascending
  split_ifs <;> simp <;> omega

theorem signIs_cascade {c1 c2 : Student → Student → Int} {a b : Student} {o : Ordering}
    {os : List Ordering} (h1 : SignIs (c1 a b) o) (h2 : SignIs (c2 a b) (firstDiffering os)) :
    SignIs (cascade c1 c2 a b) (firstDiffering (o :: os)) := by
  unfold cascade
  rcases h1 with ⟨h1, rfl⟩ | ⟨h1, rfl⟩ | ⟨h1, rfl⟩
  · rw [if_pos (by omega)]; exact Or.inl ⟨h1, rfl⟩
  · rw [if_neg (by omega)]; exact h2
  · rw [if_pos (by omega)]; exact Or.inr (Or.inr ⟨h1, rfl⟩)

theorem signIs_last {z : Int} {o : Ordering} (h : SignIs z o) : SignIs z (firstDiffering [o]) := by
  cases o <;> exact h

theorem foldCase_cons (c : Char) (cs : List Char) :
    foldCase (c :: cs) = if c.toNat ≠ 0 then tolower c :: foldCase cs else [] := by
  unfold foldCase cstr
  by_cases h : c.toNat ≠ 0
  · simp [List.takeWhile_cons, h]
  · simp [List.takeWhile_cons, h]

theorem signIs_strcasecmp : ∀ (s t : List Char),
    SignIs (strcasecmp s t) (lexCompare (foldCase s) (foldCase t))
  | [], [] => by simp [strcasecmp, foldCase, cstr, lexCompare, SignIs]
  | [], d :: ds => by
    have hd := tolower_nonneg d
    have hd0 := tolower_eq_zero d
    rw [foldCase_cons]
    by_cases h : d.toNat ≠ 0
    · rw [if_pos h]
      simp only [strcasecmp, foldCase, cstr, List.takeWhile_nil, List.map_nil, lexCompare]
      exact Or.inl ⟨by omega, rfl⟩
    · rw [if_neg h]
      simp only [strcasecmp, foldCase, cstr, List.takeWhile_nil, List.map_nil, lexCompare]
      exact Or.inr (Or.inl ⟨by omega, rfl⟩)
  | c :: cs, [] => by
    have hc := tolower_nonneg c
    have hc0 := tolower_eq_zero c
    rw [foldCase_cons]
    by_cases h : c.toNat ≠ 0
    · rw [if_pos h]
      simp only [strcasecmp, foldCase, cstr, List.takeWhile_nil, List.map_nil, lexCompare]
      exact Or.inr (Or.inr ⟨by omega, rfl⟩)
    · rw [if_neg h]
      simp only [strcasecmp, foldCase, cstr, List.takeWhile_nil, List.map_nil, lexCompare]
      exact Or.inr (Or.inl ⟨by omega, rfl⟩)
  | c :: cs, d :: ds => by
    have hc := tolower_nonneg c
    have hc0 := tolower_eq_zero c
    have hd := tolower_nonneg d
    have hd0 := tolower_eq_zero d
    have ih := signIs_strcasecmp cs ds
    rw [foldCase_cons, foldCase_cons]
    simp only [strcasecmp]
    by_cases h1 : c.toNat ≠ 0 <;> by_cases h2 : d.toNat ≠ 0
    · rw [if_pos h1, if_pos h2]
      simp only [lexCompare]
      by_cases e : tolower c = tolower d
      · have h1b : ¬ c.toNat = 0 := h1
        rw [if_neg (by omega), if_neg h1b, if_neg (by omega), if_neg (by omega)]
        exact ih
      · rw [if_pos e]
        by_cases l : tolower c < tolower d
        · rw [if_pos l]; exact Or.inl ⟨by omega, rfl⟩
        · rw [if_neg l, if_pos (by omega)]; exact Or.inr (Or.inr ⟨by omega, rfl⟩)
    · rw [if_pos h1, if_neg h2, if_pos (by omega)]
      simp only [lexCompare]
      exact Or.inr (Or.inr ⟨by omega, rfl⟩)
    · rw [if_neg h1, if_pos h2, if_pos (by omega)]
      simp only [lexCompare]
      exact Or.inl ⟨by omega, rfl⟩
    · have h1b : c.toNat = 0 := by omega
      rw [if_neg h1, if_neg h2, if_neg (by omega), if_pos h1b]
      simp only [lexCompare]
      exact Or.inr (Or.inl ⟨rfl, rfl⟩)

theorem signIs_cmpGpa {a b : Student} (ha : GpaInRange a.gpa) (hb : GpaInRange b.gpa) :
    SignIs (cmpGpa a b) (specGpa a b) := by
  have h1 := cmpGpa_neg ha hb
  have h2 := cmpGpa_pos ha hb
  unfold specGpa SignIs
  by_cases l : b.gpa.value < a.gpa.value
  · rw [if_pos l]; exact Or.inl ⟨h1.2 l, rfl⟩
  · rw [if_neg l]
    by_cases g : a.gpa.value < b.gpa.value
    · rw [if_pos g]; exact Or.inr (Or.inr ⟨h2.2 g, rfl⟩)
    · rw [if_neg g]
      have n1 : ¬ cmpGpa a b < 0 := fun h => l (h1.1 h)
      have n2 : ¬ 0 < cmpGpa a b := fun h => g (h2.1 h)
      exact Or.inr (Or.inl ⟨by omega, rfl⟩)

theorem signIs_cmpToefl (a b : Student) : SignIs (cmpToefl a b) (specToefl a b) := by
  unfold cmpToefl specToefl ascending SignIs
  split_ifs <;> simp <;> omega

theorem signIs_cmpStatus (a b : Student) (ha : a.status = 'D' ∨ a.status = 'I')
    (hb : b.status = 'D' ∨ b.status = 'I') : SignIs (cmpStatus a b) (specStatus a b) := by
  unfold cmpStatus specStatus SignIs boolToInt
  rcases ha with ha | ha <;> rcases hb with hb | hb <;> simp [ha, hb]

theorem Validated.status {s : Student} (h : Validated s) : s.status = 'D' ∨ s.status = 'I' := by
  rcases h.2.2.2.2.2.2 with h | h
  · exact Or.inl h.1
  · exact Or.inr h.1

/-- On validated records the sign of `compareStudents` is the result of the
specification's cascade. -/
theorem signIs_compareStudents (a b : Student) (ha : Validated a) (hb : Validated b) :
    SignIs (compareStudents a b) (specCompare a b) := by
  rw [compareStudents_eq_cmpKeys a b ha hb]
  unfold cmpKeys specCompare specKeys
  simp only [List.map_cons, List.map_nil]
  exact signIs_cascade (signIs_sub _ _) (signIs_cascade (signIs_sub _ _)
    (signIs_cascade (signIs_sub _ _) (signIs_cascade (signIs_strcasecmp _ _)
      (signIs_cascade (signIs_strcasecmp _ _)
        (signIs_cascade (signIs_cmpGpa ha.2.2.2.2.2.1 hb.2.2.2.2.2.1)
          (signIs_cascade (signIs_cmpToefl a b)
            (signIs_last (signIs_cmpStatus a b ha.status hb.status))))))))

theorem firstDiffering_eq_iff : ∀ (os : List Ordering),
    firstDiffering os = Ordering.eq ↔ ∀ o ∈ os, o = Ordering.eq
  | [] => by simp [firstDiffering]
  | o :: os => by
    have ih := firstDiffering_eq_iff os
    cases o <;> simp [firstDiffering, ih]

/-! ## Sorting a pair, and the driver -/

theorem cfloat_ne_comm (x y : CFloat) : CFloat.ne x y = CFloat.ne y x := by
  unfold CFloat.ne
  have e1 : decide (x.side ≠ y.side) = decide (y.side ≠ x.side) := by
    apply decide_eq_decide.2; exact ne_comm
  have e2 : decide (x.value ≠ y.value) = decide (y.value ≠ x.value) := by
    apply decide_eq_decide.2; exact ne_comm
  rw [e1, e2]
  cases x.isNaN <;> cases y.isNaN <;> rfl

theorem sortAll_pair_le (a b : Student) (h : compareStudents a b ≤ 0) :
    sortAll [a, b] = [a, b] := by
  rw [sortAll_eq_gsort]
  simp [gsort, gsortFuel, mergeLists, leS, h]

theorem sortAll_pair_gt (a b : Student) (h : 0 < compareStudents a b) :
    sortAll [a, b] = [b, a] := by
  rw [sortAll_eq_gsort]
  have h2 : ¬ compareStudents a b ≤ 0 := by omega
  simp [gsort, gsortFuel, mergeLists, leS, h2]

/-- When every line parses, the read loop collects the parsed records that the
option does not skip, in input order. -/
theorem readLoop_collect (sscanf : List Char → Scan) (option : Int) :
    ∀ (lines : List (List Char)) (students : List Student),
      (∀ line ∈ lines, parseLine (sscanf line) ≠ none) →
      readLoop sscanf option lines students
        = some (students ++ (lines.filterMap (fun line => parseLine (sscanf line))).filter
            (fun r => !skipped option r))
  | [], students, _ => by simp [readLoop]
  | line :: rest, students, h => by
    have hl := h line (List.mem_cons_self _ _)
    have hr : ∀ l ∈ rest, parseLine (sscanf l) ≠ none :=
      fun l hl => h l (List.mem_cons_of_mem _ hl)
    obtain ⟨student, hs⟩ := Option.ne_none_iff_exists'.1 hl
    simp only [readLoop, hs, List.filterMap_cons]
    by_cases hk : skipped option student = true
    · rw [if_pos hk, readLoop_collect sscanf option rest students hr,
        List.filter_cons_of_neg (by simp [hk])]
    · rw [if_neg hk, readLoop_collect sscanf option rest _ hr,
        List.filter_cons_of_pos (by simp [hk])]
      simp

/-- The read loop stops at the first line that fails to parse, whatever follows it. -/
theorem readLoop_invalid (sscanf : List Char → Scan) (option : Int) :
    ∀ (pre : List (List Char)) (bad : List Char) (rest : List (List Char))
      (students : List Student),
      (∀ line ∈ pre, parseLine (sscanf line) ≠ none) → parseLine (sscanf bad) = none →
      readLoop sscanf option (pre ++ bad :: rest) students = none
  | [], bad, rest, students, _, hb => by simp [readLoop, hb]
  | line :: pre, bad, rest, students, h, hb => by
    have hl := h line (List.mem_cons_self _ _)
    have hr : ∀ l ∈ pre, parseLine (sscanf l) ≠ none :=
      fun l hl => h l (List.mem_cons_of_mem _ hl)
    obtain ⟨student, hs⟩ := Option.ne_none_iff_exists'.1 hl
    simp only [List.cons_append, readLoop, hs]
    split
    · exact readLoop_invalid sscanf option pre bad rest _ hr hb
    · exact readLoop_invalid sscanf option pre bad rest _ hr hb

/-- When the option is valid and every line parses, `main` writes the sort of the
records that the option keeps, one line for each, and exits with `0`. -/
theorem main_valid (sscanf : List Char → Scan) (option : Int) (lines : List (List Char))
    (hopt : 1 ≤ option ∧ option ≤ 3)
    (hall : ∀ line ∈ lines, parseLine (sscanf line) ≠ none) :
    main sscanf option lines
      = ((sortAll ((lines.filterMap (fun line => parseLine (sscanf line))).filter
          (fun r => !skipped option r))).map writeRecord, 0) := by
  have hno : ¬ (option < 1 ∨ option > 3) := by omega
  unfold main
  rw [if_neg hno, readLoop_collect sscanf option lines [] hall]
  simp

/-- A list with an element that fails a test splits at the first such element. -/
theorem exists_first_failing {α : Type} (p : α → Prop) [DecidablePred p] :
    ∀ (l : List α), (∃ x ∈ l, ¬ p x) →
      ∃ pre bad rest, l = pre ++ bad :: rest ∧ (∀ x ∈ pre, p x) ∧ ¬ p bad
  | [], h => by simp at h
  | x :: l, h => by
    by_cases hx : p x
    · have h2 : ∃ y ∈ l, ¬ p y := by
        obtain ⟨y, hy, hpy⟩ := h
        rcases List.mem_cons.1 hy with e | hy2
        · subst e; exact absurd hx hpy
        · exact ⟨y, hy2, hpy⟩
      obtain ⟨pre, bad, rest, e, hpre, hbad⟩ := exists_first_failing p l h2
      refine ⟨x :: pre, bad, rest, by rw [e]; rfl, ?_, hbad⟩
      intro y hy
      rcases List.mem_cons.1 hy with e2 | hy2
      · subst e2; exact hx
      · exact hpre y hy2
    · exact ⟨[], x, l, rfl, by simp, hx⟩

theorem pairwise_of_chain {α : Type} {P : α → Prop} {le : α → α → Bool}
    (h : PreorderOn P le) : ∀ (l : List α), (∀ x ∈ l, P x) →
      l.Chain' (fun a b => le a b = true) → l.Pairwise (fun a b => le a b = true)
  | [], _, _ => List.Pairwise.nil
  | [x], _, _ => List.pairwise_singleton _ x
  | x :: y :: l, hp, hc => by
    have hc2 := List.chain'_cons.1 hc
    have ih := pairwise_of_chain h (y :: l) (fun z hz => hp z (List.mem_cons_of_mem _ hz)) hc2.2
    have ihc := List.pairwise_cons.1 ih
    have px : P x := hp x (List.mem_cons_self _ _)
    have py : P y := hp y (List.mem_cons_of_mem _ (List.mem_cons_self _ _))
    refine List.pairwise_cons.2 ⟨?_, ih⟩
    intro z hz
    rcases List.mem_cons.1 hz with e | hz2
    · rw [e]; exact hc2.1
    · exact h.trans x y z px py (hp z (List.mem_cons_of_mem _ hz)) hc2.1 (ihc.1 z hz2)

/-- A sorted array of validated records is left as it is by the sort. -/
theorem sortAll_of_sorted (xs : List Student) (hv : ∀ s ∈ xs, Validated s)
    (hs : xs.Chain' (fun x y => compareStudents x y ≤ 0)) : sortAll xs = xs := by
  rw [sortAll_eq_gsort]
  apply gsort_of_sorted preorderOn_leS xs hv
  apply pairwise_of_chain preorderOn_leS xs hv
  exact hs.imp (fun {a b} hab => by simp [leS, hab])

/-! ## The claims -/

/-- C1. After `mergeSort(arr, 0, n-1)` on `n` validated records the array still has `n`
elements and is ordered by the comparator: `compareStudents(arr[i], arr[i+1]) <= 0` for
every `i` with `0 <= i < n-1` (also for `n = 0`, where the call does nothing). -/
theorem C1_mergeSort_ordered (arr : List Student) (hv : ∀ s ∈ arr, Validated s) :
    (mergeSort arr 0 ((arr.length : Int) - 1)).length = arr.length ∧
    ∀ i : Nat, i + 1 < arr.length →
      compareStudents (rd (mergeSort arr 0 ((arr.length : Int) - 1)) (i : Int))
        (rd (mergeSort arr 0 ((arr.length : Int) - 1)) ((i : Int) + 1)) ≤ 0 := by
  have hlen : (sortAll arr).length = arr.length := (sortAll_perm arr).length_eq
  have hs := List.pairwise_iff_getElem.1 (sortAll_sorted arr hv)
  refine ⟨hlen, ?_⟩
  intro i hi
  have e : (i : Int) + 1 = ((i + 1 : Nat) : Int) := by push_cast; rfl
  show compareStudents (rd (sortAll arr) (i : Int)) (rd (sortAll arr) ((i : Int) + 1)) ≤ 0
  rw [e, rd_natCast, rd_natCast, List.getD_eq_getElem _ _ (by omega),
    List.getD_eq_getElem _ _ (by omega)]
  have := hs i (i + 1) (by omega) (by omega) (by omega)
  simpa [leS] using this

/-- C1, on three records out of order. -/
theorem C1_mergeSort_ordered_witness :
    (∀ s ∈ [recAmir, recJane, recBob], Validated s) ∧
    (mergeSort [recAmir, recJane, recBob] 0 (([recAmir, recJane, recBob].length : Int) - 1)).length
      = [recAmir, recJane, recBob].length ∧
    ∀ i : Nat, i + 1 < [recAmir, recJane, recBob].length →
      compareStudents
        (rd (mergeSort [recAmir, recJane, recBob] 0
          (([recAmir, recJane, recBob].length : Int) - 1)) (i : Int))
        (rd (mergeSort [recAmir, recJane, recBob] 0
          (([recAmir, recJane, recBob].length : Int) - 1)) ((i : Int) + 1)) ≤ 0 :=
  ⟨by decide, C1_mergeSort_ordered [recAmir, recJane, recBob] (by decide)⟩

/-- C2. The result of `mergeSort` over the whole sequence is a permutation of the input:
the same length and the same records with the same multiplicities, for every sequence
of records, validated or not. -/
theorem C2_mergeSort_perm (arr : List Student) :
    (mergeSort arr 0 ((arr.length : Int) - 1)).Perm arr ∧
    (mergeSort arr 0 ((arr.length : Int) - 1)).length = arr.length ∧
    ∀ s : Student, (mergeSort arr 0 ((arr.length : Int) - 1)).count s = arr.count s :=
  ⟨sortAll_perm arr, (sortAll_perm arr).length_eq, fun s => (sortAll_perm arr).count_eq s⟩

/-- C3. `mergeSort` is stable on validated records. There is a list `σ` of the input
positions, a permutation of `0..n-1`, such that the record at each position of the
sorted array is the input record at the corresponding position of `σ`, and whenever
`i < j` and `compareStudents(arr[i], arr[j]) == 0`, position `i` comes before position
`j` in `σ`: the record originally at `i` is placed before the one originally at `j`. -/
theorem C3_mergeSort_stable (arr : List Student) (hv : ∀ s ∈ arr, Validated s) :
    ∃ σ : List Nat, σ.Perm (List.range arr.length) ∧
      mergeSort arr 0 ((arr.length : Int) - 1) = σ.map (fun (k : Nat) => rd arr (k : Int)) ∧
      ∀ i j : Nat, i < j → j < arr.length →
        compareStudents (rd arr (i : Int)) (rd arr (j : Int)) = 0 → [i, j].Sublist σ := by
  have hT : ∀ p ∈ tagPositions arr, Validated p.2 := by
    intro p hp
    obtain ⟨h1, h2⟩ := tagPositions_mem arr p hp
    rw [h2]
    exact hv _ (rd_mem arr p.1 h1)
  refine ⟨(gsort (fun p q : Nat × Student => leS p.2 q.2) (tagPositions arr)).map Prod.fst,
    ?_, ?_, ?_⟩
  · rw [← tagPositions_fst arr]
    exact (gsort_perm (tagPositions arr)).map Prod.fst
  · show sortAll arr = _
    rw [sortAll_tagged, List.map_map]
    apply List.map_congr_left
    intro p hp
    exact (tagPositions_mem arr p ((gsort_perm (tagPositions arr)).mem_iff.1 hp)).2
  · intro i j hij hj h0
    have hi : i < arr.length := by omega
    have vi : Validated (rd arr (i : Int)) := hv _ (rd_mem arr i hi)
    have vj : Validated (rd arr (j : Int)) := hv _ (rd_mem arr j hj)
    have hswap := cmpOn_compareStudents.swap (rd arr (i : Int)) (rd arr (j : Int)) vi vj
    have hswap2 := cmpOn_compareStudents.swap (rd arr (j : Int)) (rd arr (i : Int)) vj vi
    have hfilt := gsort_filter_tied preorderOn_tagged (tagPositions arr) hT
      ((i, rd arr (i : Int)) : Nat × Student) vi
    have hpair : [((i, rd arr (i : Int)) : Nat × Student), (j, rd arr (j : Int))].Sublist
        (tagPositions arr) :=
      (pair_sublist_range i j arr.length hij hj).map (fun (k : Nat) => (k, rd arr (k : Int)))
    have hq1 : tied (fun p q : Nat × Student => leS p.2 q.2)
        ((i, rd arr (i : Int)) : Nat × Student) (i, rd arr (i : Int)) = true :=
      tied_self preorderOn_tagged _ vi
    have hq2 : tied (fun p q : Nat × Student => leS p.2 q.2)
        ((i, rd arr (i : Int)) : Nat × Student) (j, rd arr (j : Int)) = true := by
      simp only [tied, leS, Bool.and_eq_true, decide_eq_true_eq]
      omega
    have hpair2 := hpair.filter (tied (fun p q : Nat × Student => leS p.2 q.2)
      ((i, rd arr (i : Int)) : Nat × Student))
    rw [List.filter_cons_of_pos hq1, List.filter_cons_of_pos hq2, List.filter_nil,
      ← hfilt] at hpair2
    exact (hpair2.trans (List.filter_sublist _)).map Prod.fst

/-- C3, on an array whose first and last records tie with a smaller record between. -/
theorem C3_mergeSort_stable_witness :
    (∀ s ∈ [recJane, recBob, recJaneUpper], Validated s) ∧
    ∃ σ : List Nat, σ.Perm (List.range [recJane, recBob, recJaneUpper].length) ∧
      mergeSort [recJane, recBob, recJaneUpper] 0
          (([recJane, recBob, recJaneUpper].length : Int) - 1)
        = σ.map (fun (k : Nat) => rd [recJane, recBob, recJaneUpper] (k : Int)) ∧
      ∀ i j : Nat, i < j → j < [recJane, recBob, recJaneUpper].length →
        compareStudents (rd [recJane, recBob, recJaneUpper] (i : Int))
          (rd [recJane, recBob, recJaneUpper] (j : Int)) = 0 → [i, j].Sublist σ :=
  ⟨by decide, C3_mergeSort_stable [recJane, recBob, recJaneUpper] (by decide)⟩

/-- C4. `compareStudents` is transitive on validated records. -/
theorem C4_compareStudents_trans (a b c : Student) (ha : Validated a) (hb : Validated b)
    (hc : Validated c) (hab : compareStudents a b ≤ 0) (hbc : compareStudents b c ≤ 0) :
    compareStudents a c ≤ 0 :=
  cmpOn_compareStudents.trans a b c ha hb hc hab hbc

/-- C4, on three records of which the last two meet at key 7 (absent TOEFL first). -/
theorem C4_compareStudents_trans_witness :
    Validated recBob ∧ Validated recJane ∧ Validated recJaneI ∧
    compareStudents recBob recJane ≤ 0 ∧ compareStudents recJane recJaneI ≤ 0 ∧
    compareStudents recBob recJaneI ≤ 0 :=
  ⟨by decide, by decide, by decide, by decide, by decide,
   C4_compareStudents_trans recBob recJane recJaneI (by decide) (by decide) (by decide)
     (by decide) (by decide)⟩

/-- C5. On validated records `compareStudents` is consistent under a swap of its
arguments: negative one way iff positive the other way, zero one way iff zero the other
way, and zero on a record and itself. -/
theorem C5_compareStudents_swap (a b : Student) (ha : Validated a) (hb : Validated b) :
    (compareStudents a b < 0 ↔ compareStudents b a > 0) ∧
    (compareStudents a b = 0 ↔ compareStudents b a = 0) ∧
    compareStudents a a = 0 := by
  have h1 := cmpOn_compareStudents.swap a b ha hb
  have h2 := cmpOn_compareStudents.swap b a hb ha
  have h3 := cmpOn_compareStudents.swap a a ha ha
  refine ⟨?_, ?_, ?_⟩
  · constructor <;> intro h <;> omega
  · constructor <;> intro h <;> omega
  · omega

/-- C5, on a domestic and an international record. -/
theorem C5_compareStudents_swap_witness :
    Validated recJane ∧ Validated recAmir ∧
    (compareStudents recJane recAmir < 0 ↔ compareStudents recAmir recJane > 0) ∧
    (compareStudents recJane recAmir = 0 ↔ compareStudents recAmir recJane = 0) ∧
    compareStudents recJane recJane = 0 :=
  ⟨by decide, by decide, C5_compareStudents_swap recJane recAmir (by decide) (by decide)⟩

/-- C6. On validated records the sign of `compareStudents(a, b)` is the result of the
reference cascade of the specification, in which the first of the eight keys (year,
month ordinal, day, last name, first name, GPA descending, TOEFL rule, status) on which
the records differ decides; and `compareStudents(a, b) == 0` exactly when all eight
keys tie. -/
theorem C6_compareStudents_cascade (a b : Student) (ha : Validated a) (hb : Validated b) :
    (compareStudents a b < 0 ↔ specCompare a b = Ordering.lt) ∧
    (compareStudents a b = 0 ↔ specCompare a b = Ordering.eq) ∧
    (0 < compareStudents a b ↔ specCompare a b = Ordering.gt) ∧
    (compareStudents a b = 0 ↔ ∀ k ∈ specKeys, k a b = Ordering.eq) := by
  have h := signIs_compareStudents a b ha hb
  refine ⟨h.lt_iff, h.eq_iff, h.gt_iff, ?_⟩
  rw [h.eq_iff]
  unfold specCompare
  rw [firstDiffering_eq_iff]
  simp only [List.mem_map, forall_exists_index, and_imp, forall_apply_eq_imp_iff₂]

/-- C6, on two records that first differ at key 6 (GPA). -/
theorem C6_compareStudents_cascade_witness :
    Validated recBob ∧ Validated { recBob with gpa := CFloat.fin (mkRat 7 2) } ∧
    (compareStudents recBob { recBob with gpa := CFloat.fin (mkRat 7 2) } < 0 ↔
      specCompare recBob { recBob with gpa := CFloat.fin (mkRat 7 2) } = Ordering.lt) ∧
    (compareStudents recBob { recBob with gpa := CFloat.fin (mkRat 7 2) } = 0 ↔
      specCompare recBob { recBob with gpa := CFloat.fin (mkRat 7 2) } = Ordering.eq) ∧
    (0 < compareStudents recBob { recBob with gpa := CFloat.fin (mkRat 7 2) } ↔
      specCompare recBob { recBob with gpa := CFloat.fin (mkRat 7 2) } = Ordering.gt) ∧
    (compareStudents recBob { recBob with gpa := CFloat.fin (mkRat 7 2) } = 0 ↔
      ∀ k ∈ specKeys, k recBob { recBob with gpa := CFloat.fin (mkRat 7 2) } = Ordering.eq) :=
  ⟨by decide, by decide,
   C6_compareStudents_cascade recBob { recBob with gpa := CFloat.fin (mkRat 7 2) }
     (by decide) (by decide)⟩

/-- C7. Sentinel precedence. For all records `a`, `b` that tie on keys 1 to 6 (equal
year, month number and day, names equal up to letter case, equal GPA), if `a` carries
the absent TOEFL sentinel `-1` and `b` a score in `[0,120]`, then
`compareStudents(a, b) < 0` and `compareStudents(b, a) > 0`, and the sort of the two
records puts `a` first in either input order. -/
theorem C7_sentinel_precedence (a b : Student) (h1 : a.year = b.year)
    (h2 : monthToNum a.month = monthToNum b.month) (h3 : a.day = b.day)
    (h4 : strcasecmp a.lastName b.lastName = 0) (h5 : strcasecmp a.firstName b.firstName = 0)
    (h6 : CFloat.ne a.gpa b.gpa = false) (ha : a.toefl = -1)
    (hb0 : 0 ≤ b.toefl) (hb1 : b.toefl ≤ 120) :
    compareStudents a b < 0 ∧ compareStudents b a > 0 ∧
    sortAll [a, b] = [a, b] ∧ sortAll [b, a] = [a, b] := by
  have hw : wrapInt 0 = 0 := by decide
  have h4r : strcasecmp b.lastName a.lastName = 0 := by
    rw [strcasecmp_swap a.lastName b.lastName, h4]; rfl
  have h5r : strcasecmp b.firstName a.firstName = 0 := by
    rw [strcasecmp_swap a.firstName b.firstName, h5]; rfl
  have h6r : CFloat.ne b.gpa a.gpa = false := by rw [cfloat_ne_comm, h6]
  have hne : ¬ b.toefl = -1 := by omega
  have e1 : compareStudents a b = -1 := by
    unfold compareStudents
    simp [h1, h2, h3, h4, h5, h6, ha, hw]
    omega
  have e2 : compareStudents b a = 1 := by
    unfold compareStudents
    simp [h1, h2, h3, h4r, h5r, h6r, ha, hw, hne]
  refine ⟨by omega, by omega, sortAll_pair_le a b (by omega), sortAll_pair_gt b a (by omega)⟩

/-- C7, on a domestic record and an international one with score 118 and the same
date, name and GPA. -/
theorem C7_sentinel_precedence_witness :
    compareStudents recJane recJaneI < 0 ∧ compareStudents recJaneI recJane > 0 ∧
    sortAll [recJane, recJaneI] = [recJane, recJaneI] ∧
    sortAll [recJaneI, recJane] = [recJane, recJaneI] :=
  C7_sentinel_precedence recJane recJaneI (by decide) (by decide) (by decide) (by decide)
    (by decide) (by decide) (by decide) (by decide) (by decide)

/-- C8. Filtering commutes with sorting on validated records: the sort of the records
that the driver keeps under option 1 (resp. option 2) is exactly the list of the
status-`D` (resp. status-`I`) records of the sort of all records, in the same order;
option 3 keeps all records; and the option-1 result holds only status-`D` records, the
option-2 result only status-`I` records. -/
theorem C8_filter_commutes (xs : List Student) (hv : ∀ s ∈ xs, Validated s) :
    sortAll (xs.filter (fun r => !skipped 1 r)) = (sortAll xs).filter (fun r => r.status == 'D') ∧
    sortAll (xs.filter (fun r => !skipped 2 r)) = (sortAll xs).filter (fun r => r.status == 'I') ∧
    xs.filter (fun r => !skipped 3 r) = xs ∧
    (∀ r ∈ sortAll (xs.filter (fun r => !skipped 1 r)), r.status = 'D') ∧
    (∀ r ∈ sortAll (xs.filter (fun r => !skipped 2 r)), r.status = 'I') := by
  have k1 : (fun r : Student => !skipped 1 r) = (fun r => r.status == 'D') := by
    funext r; simp [skipped, bne]
  have k2 : (fun r : Student => !skipped 2 r) = (fun r => r.status == 'I') := by
    funext r; simp [skipped, bne]
  have k3 : (fun r : Student => !skipped 3 r) = (fun _ => true) := by
    funext r; simp [skipped]
  have c1 : sortAll (xs.filter (fun r => r.status == 'D'))
      = (sortAll xs).filter (fun r => r.status == 'D') := by
    rw [sortAll_eq_gsort, sortAll_eq_gsort]
    exact gsort_filter_comm preorderOn_leS xs hv _
  have c2 : sortAll (xs.filter (fun r => r.status == 'I'))
      = (sortAll xs).filter (fun r => r.status == 'I') := by
    rw [sortAll_eq_gsort, sortAll_eq_gsort]
    exact gsort_filter_comm preorderOn_leS xs hv _
  rw [k1, k2, k3]
  refine ⟨c1, c2, by simp, ?_, ?_⟩
  · intro r hr
    rw [c1] at hr
    simpa using (List.mem_filter.1 hr).2
  · intro r hr
    rw [c2] at hr
    simpa using (List.mem_filter.1 hr).2

/-- C8, on a mixed array of domestic and international records. -/
theorem C8_filter_commutes_witness :
    (∀ s ∈ [recAmir, recJane, recBob, recJaneUpper], Validated s) ∧
    sortAll ([recAmir, recJane, recBob, recJaneUpper].filter (fun r => !skipped 1 r))
      = (sortAll [recAmir, recJane, recBob, recJaneUpper]).filter (fun r => r.status == 'D') ∧
    sortAll ([recAmir, recJane, recBob, recJaneUpper].filter (fun r => !skipped 2 r))
      = (sortAll [recAmir, recJane, recBob, recJaneUpper]).filter (fun r => r.status == 'I') ∧
    [recAmir, recJane, recBob, recJaneUpper].filter (fun r => !skipped 3 r)
      = [recAmir, recJane, recBob, recJaneUpper] ∧
    (∀ r ∈ sortAll ([recAmir, recJane, recBob, recJaneUpper].filter (fun r => !skipped 1 r)),
      r.status = 'D') ∧
    (∀ r ∈ sortAll ([recAmir, recJane, recBob, recJaneUpper].filter (fun r => !skipped 2 r)),
      r.status = 'I') :=
  ⟨by decide, C8_filter_commutes [recAmir, recJane, recBob, recJaneUpper] (by decide)⟩

/-- C9. Idempotence on validated records: an array in which every adjacent pair
compares `<= 0` is returned by `mergeSort` unchanged, record for record; hence sorting
the sorted array again changes nothing. -/
theorem C9_mergeSort_idempotent (arr : List Student) (hv : ∀ s ∈ arr, Validated s) :
    (arr.Chain' (fun x y => compareStudents x y ≤ 0) →
      mergeSort arr 0 ((arr.length : Int) - 1) = arr) ∧
    mergeSort (mergeSort arr 0 ((arr.length : Int) - 1)) 0
        (((mergeSort arr 0 ((arr.length : Int) - 1)).length : Int) - 1)
      = mergeSort arr 0 ((arr.length : Int) - 1) := by
  refine ⟨fun hs => sortAll_of_sorted arr hv hs, ?_⟩
  show sortAll (sortAll arr) = sortAll arr
  apply sortAll_of_sorted _ (sortAll_validated arr hv)
  apply List.Pairwise.chain'
  exact (sortAll_sorted arr hv).imp (fun {a b} hab => by simpa [leS] using hab)

/-- C9, on a sorted array of three records. -/
theorem C9_mergeSort_idempotent_witness :
    (∀ s ∈ [recBob, recJane, recAmir], Validated s) ∧
    [recBob, recJane, recAmir].Chain' (fun x y => compareStudents x y ≤ 0) ∧
    mergeSort [recBob, recJane, recAmir] 0 (([recBob, recJane, recAmir].length : Int) - 1)
      = [recBob, recJane, recAmir] ∧
    mergeSort (mergeSort [recBob, recJane, recAmir] 0
          (([recBob, recJane, recAmir].length : Int) - 1)) 0
        (((mergeSort [recBob, recJane, recAmir] 0
          (([recBob, recJane, recAmir].length : Int) - 1)).length : Int) - 1)
      = mergeSort [recBob, recJane, recAmir] 0 (([recBob, recJane, recAmir].length : Int) - 1) :=
  ⟨by decide,
   List.chain'_cons.2 ⟨by decide, List.chain'_cons.2 ⟨by decide, List.chain'_singleton _⟩⟩,
   (C9_mergeSort_idempotent [recBob, recJane, recAmir] (by decide)).1
     (List.chain'_cons.2 ⟨by decide, List.chain'_cons.2 ⟨by decide, List.chain'_singleton _⟩⟩),
   (C9_mergeSort_idempotent [recBob, recJane, recAmir] (by decide)).2⟩

/-- C10. Fail-closed on the first invalid line. When the option is valid and some
line fails `parseLine`, the output file holds exactly the one error line and no record
line and the exit code is `1`, however many valid lines come first; and the outcome is
the same whatever follows the first invalid line, so nothing after it is processed. -/
theorem C10_fail_closed (sscanf : List Char → Scan) (option : Int) (lines : List (List Char))
    (hopt : 1 ≤ option ∧ option ≤ 3)
    (hbad : ∃ line ∈ lines, parseLine (sscanf line) = none) :
    main sscanf option lines = ([OutLine.error], 1) ∧
    ∃ pre bad rest, lines = pre ++ bad :: rest ∧
      (∀ line ∈ pre, parseLine (sscanf line) ≠ none) ∧ parseLine (sscanf bad) = none ∧
      ∀ rest2, main sscanf option (pre ++ bad :: rest2) = ([OutLine.error], 1) := by
  have hb2 : ∃ line ∈ lines, ¬ (parseLine (sscanf line) ≠ none) := by
    obtain ⟨line, hl, hp⟩ := hbad
    exact ⟨line, hl, by simp [hp]⟩
  obtain ⟨pre, bad, rest, e, hpre, hb⟩ :=
    exists_first_failing (fun line => parseLine (sscanf line) ≠ none) lines hb2
  have hb3 : parseLine (sscanf bad) = none := by
    by_contra hc; exact hb hc
  have hno : ¬ (option < 1 ∨ option > 3) := by omega
  have key : ∀ rest2, main sscanf option (pre ++ bad :: rest2) = ([OutLine.error], 1) := by
    intro rest2
    unfold main
    rw [if_neg hno, readLoop_invalid sscanf option pre bad rest2 [] hpre hb3]
  exact ⟨by rw [e]; exact key rest, pre, bad, rest, e, hpre, hb3, key⟩

/-- C10, on a three-line input whose second line has an out-of-range year. -/
theorem C10_fail_closed_witness :
    ((1 : Int) ≤ 3 ∧ (3 : Int) ≤ 3) ∧
    (∃ line ∈ ["ok".toList, "bad".toList, "more".toList], parseLine (sampleScan line) = none) ∧
    main sampleScan 3 ["ok".toList, "bad".toList, "more".toList] = ([OutLine.error], 1) ∧
    ∃ pre bad rest, ["ok".toList, "bad".toList, "more".toList] = pre ++ bad :: rest ∧
      (∀ line ∈ pre, parseLine (sampleScan line) ≠ none) ∧ parseLine (sampleScan bad) = none ∧
      ∀ rest2, main sampleScan 3 (pre ++ bad :: rest2) = ([OutLine.error], 1) :=
  ⟨by decide, by decide,
   C10_fail_closed sampleScan 3 ["ok".toList, "bad".toList, "more".toList] (by decide)
     (by decide)⟩

/-! ## Months and dates -/

theorem lexCompare_eq_iff : ∀ (xs ys : List Int), lexCompare xs ys = Ordering.eq ↔ xs = ys
  | [], [] => by simp [lexCompare]
  | [], _ :: _ => by simp [lexCompare]
  | _ :: _, [] => by simp [lexCompare]
  | x :: xs, y :: ys => by
    have ih := lexCompare_eq_iff xs ys
    simp only [lexCompare, List.cons.injEq]
    split_ifs with h1 h2
    · constructor
      · intro h; cases h
      · intro h; omega
    · constructor
      · intro h; cases h
      · intro h; omega
    · rw [ih]
      constructor
      · intro h; exact ⟨by omega, h⟩
      · intro h; exact h.2

/-- `strcasecmp` returns `0` exactly on two strings with the same case-folded text. -/
theorem strcasecmp_eq_zero_iff (s t : List Char) :
    strcasecmp s t = 0 ↔ foldCase s = foldCase t := by
  rw [(signIs_strcasecmp s t).eq_iff, lexCompare_eq_iff]

theorem monthToNumLoop_ne_iff (s : List Char) : ∀ (tbl : List (List Char)) (i : Int), 0 ≤ i →
    (monthToNumLoop s tbl i ≠ -1 ↔ ∃ m ∈ tbl, foldCase s = foldCase m)
  | [], _, _ => by simp [monthToNumLoop]
  | t :: tbl, i, hi => by
    have ih := monthToNumLoop_ne_iff s tbl (i + 1) (by omega)
    simp only [monthToNumLoop, List.mem_cons, exists_eq_or_imp]
    by_cases h : strcasecmp s t = 0
    · rw [if_pos h]
      constructor
      · intro _; exact Or.inl ((strcasecmp_eq_zero_iff s t).1 h)
      · intro _; omega
    · rw [if_neg h, ih]
      constructor
      · intro h2; exact Or.inr h2
      · intro h2
        rcases h2 with h2 | h2
        · exact absurd ((strcasecmp_eq_zero_iff s t).2 h2) h
        · exact h2

/-- A string is accepted by `monthToNum` exactly when its case-folded text is that of
an entry of the table. -/
theorem monthToNum_ne_iff (s : List Char) :
    monthToNum s ≠ -1 ↔ ∃ m ∈ months, foldCase s = foldCase m :=
  monthToNumLoop_ne_iff s months 0 (le_refl _)

theorem monthToNumLoop_eq (s : List Char) : ∀ (tbl : List (List Char)) (i : Int) (k : Nat)
    (m : List Char), tbl[k]? = some m → foldCase s = foldCase m → (tbl.map foldCase).Nodup →
    monthToNumLoop s tbl i = i + (k : Int) + 1
  | [], _, k, m, hk, _, _ => by simp at hk
  | t :: tbl, i, 0, m, hk, hm, _ => by
    simp only [List.getElem?_cons_zero, Option.some.injEq] at hk
    subst hk
    simp only [monthToNumLoop]
    rw [if_pos ((strcasecmp_eq_zero_iff s t).2 hm)]
    simp
  | t :: tbl, i, k + 1, m, hk, hm, hnd => by
    simp only [List.getElem?_cons_succ] at hk
    simp only [List.map_cons, List.nodup_cons] at hnd
    have hmem : m ∈ tbl := List.getElem?_mem hk
    have hne : ¬ strcasecmp s t = 0 := by
      intro h0
      have e := (strcasecmp_eq_zero_iff s t).1 h0
      apply hnd.1
      rw [← e, hm]
      exact List.mem_map_of_mem foldCase hmem
    simp only [monthToNumLoop]
    rw [if_neg hne, monthToNumLoop_eq s tbl (i + 1) k m hk hm hnd.2]
    push_cast
    omega

theorem months_nodup : (months.map foldCase).Nodup := by decide

/-- Two strings with the same case-folded text have the same month number. -/
theorem monthToNumLoop_congr (s t : List Char) (h : foldCase s = foldCase t) :
    ∀ (tbl : List (List Char)) (i : Int), monthToNumLoop s tbl i = monthToNumLoop t tbl i
  | [], _ => rfl
  | m :: tbl, i => by
    have e : strcasecmp s m = 0 ↔ strcasecmp t m = 0 := by
      rw [strcasecmp_eq_zero_iff, strcasecmp_eq_zero_iff, h]
    simp only [monthToNumLoop]
    by_cases h0 : strcasecmp s m = 0
    · rw [if_pos h0, if_pos (e.1 h0)]
    · rw [if_neg h0, if_neg (fun h1 => h0 (e.2 h1))]
      exact monthToNumLoop_congr s t h tbl (i + 1)

theorem isValidDate_iff (month : List Char) (day year : Int) :
    isValidDate month day year = true ↔
      (monthToNum month ≠ -1 ∧ 1950 ≤ year ∧ year ≤ 2010 ∧ 1 ≤ day ∧ day ≤ 31) := by
  unfold isValidDate isValidMonth
  by_cases hm : monthToNum month = -1
  · simp [hm]
  · have hm2 : (!decide (monthToNum month ≠ -1)) = false := by simp [hm]
    rw [hm2]
    by_cases hy : year < 1950 ∨ year > 2010
    · rw [if_neg (by simp), if_pos hy]
      constructor
      · intro h; cases h
      · intro h; omega
    · by_cases hd : day < 1 ∨ day > 31
      · rw [if_neg (by simp), if_neg hy, if_pos hd]
        constructor
        · intro h; cases h
        · intro h; omega
      · rw [if_neg (by simp), if_neg hy, if_neg hd]
        constructor
        · intro _; exact ⟨hm, by omega, by omega, by omega, by omega⟩
        · intro _; rfl

/-- C12. `isValidDate(month, day, year)` accepts exactly when the month is one of the
twelve abbreviations of the table up to letter case, `1950 <= year <= 2010` and
`1 <= day <= 31`, for all strings and all integers. In particular the years 1950 and
2010 are accepted, 1949 and 2011 are rejected, and day 31 is accepted for every month
of the table, `Feb` included. -/
theorem C12_isValidDate :
    (∀ (month : List Char) (day year : Int),
      isValidDate month day year = true ↔
        ((∃ m ∈ months, foldCase month = foldCase m) ∧
          1950 ≤ year ∧ year ≤ 2010 ∧ 1 ≤ day ∧ day ≤ 31)) ∧
    (∀ m ∈ months, ∀ day : Int, 1 ≤ day → day ≤ 31 →
      isValidDate m day 1950 = true ∧ isValidDate m day 2010 = true ∧
      isValidDate m day 1949 = false ∧ isValidDate m day 2011 = false) ∧
    (∀ m ∈ months, ∀ year : Int, 1950 ≤ year → year ≤ 2010 → isValidDate m 31 year = true) ∧
    isValidDate "Feb".toList 31 2000 = true ∧
    isValidDate "feb".toList 31 2000 = true ∧
    isValidDate "Feb".toList 32 2000 = false ∧
    isValidDate "Feb".toList 0 2000 = false ∧
    isValidDate "Fev".toList 1 2000 = false := by
  have key : ∀ (month : List Char) (day year : Int),
      isValidDate month day year = true ↔
        ((∃ m ∈ months, foldCase month = foldCase m) ∧
          1950 ≤ year ∧ year ≤ 2010 ∧ 1 ≤ day ∧ day ≤ 31) := by
    intro month day year
    rw [isValidDate_iff, monthToNum_ne_iff]
  refine ⟨key, ?_, ?_, by decide, by decide, by decide, by decide, by decide⟩
  · intro m hm day h1 h2
    have hmm : ∃ k ∈ months, foldCase m = foldCase k := ⟨m, hm, rfl⟩
    refine ⟨(key m day 1950).2 ⟨hmm, by omega, by omega, h1, h2⟩,
      (key m day 2010).2 ⟨hmm, by omega, by omega, h1, h2⟩, ?_, ?_⟩
    · cases h : isValidDate m day 1949
      · rfl
      · have := (key m day 1949).1 h
        omega
    · cases h : isValidDate m day 2011
      · rfl
      · have := (key m day 2011).1 h
        omega
  · intro m hm year h1 h2
    exact (key m 31 year).2 ⟨⟨m, hm, rfl⟩, h1, h2, by omega, by omega⟩

/-- C18. `monthToNum` maps every spelling of the `k`-th abbreviation of the table, in
any mix of upper and lower case, to `k + 1` (so `Jan` to 1 and `Dec` to 12), and every
string that is no spelling of an abbreviation to `-1`; its result is always `-1` or
between 1 and 12. -/
theorem C18_monthToNum :
    (∀ (s : List Char) (k : Nat) (m : List Char), months[k]? = some m →
      foldCase s = foldCase m → monthToNum s = (k : Int) + 1) ∧
    (∀ (s : List Char), (∀ m ∈ months, foldCase s ≠ foldCase m) → monthToNum s = -1) ∧
    (∀ (s : List Char), monthToNum s = -1 ∨ (1 ≤ monthToNum s ∧ monthToNum s ≤ 12)) ∧
    months.map monthToNum = [1, 2, 3, 4, 5, 6, 7, 8, 9, 10, 11, 12] ∧
    monthToNum "jAN".toList = 1 ∧ monthToNum "DEC".toList = 12 ∧ monthToNum "dec".toList = 12 ∧
    monthToNum "Ja".toList = -1 ∧ monthToNum "Janu".toList = -1 ∧ monthToNum [] = -1 := by
  refine ⟨?_, ?_, monthToNum_range, by decide, by decide, by decide, by decide, by decide,
    by decide, by decide⟩
  · intro s k m hk hm
    have h := monthToNumLoop_eq s months 0 k m hk hm months_nodup
    unfold monthToNum
    rw [h]
    omega
  · intro s hs
    by_contra hc
    obtain ⟨m, hm, e⟩ := (monthToNum_ne_iff s).1 hc
    exact hs m hm e

/-- C18, on the spelling `mAr` of the third abbreviation and on a string that is no
month. -/
theorem C18_monthToNum_witness :
    months[2]? = some "Mar".toList ∧ foldCase "mAr".toList = foldCase "Mar".toList ∧
    monthToNum "mAr".toList = ((2 : Nat) : Int) + 1 ∧
    (∀ m ∈ months, foldCase "Mai".toList ≠ foldCase m) ∧ monthToNum "Mai".toList = -1 :=
  ⟨by decide, by decide,
   C18_monthToNum.1 "mAr".toList 2 "Mar".toList (by decide) (by decide),
   by decide, C18_monthToNum.2.1 "Mai".toList (by decide)⟩

/-- C12, on day 31 of February and on the year bounds for March. -/
theorem C12_isValidDate_witness :
    "Feb".toList ∈ months ∧ isValidDate "Feb".toList 31 2000 = true ∧
    "Mar".toList ∈ months ∧
    (isValidDate "Mar".toList 5 1950 = true ∧ isValidDate "Mar".toList 5 2010 = true ∧
     isValidDate "Mar".toList 5 1949 = false ∧ isValidDate "Mar".toList 5 2011 = false) :=
  ⟨by decide, C12_isValidDate.2.2.1 "Feb".toList (by decide) 2000 (by decide) (by decide),
   by decide, C12_isValidDate.2.1 "Mar".toList (by decide) 5 (by decide) (by decide)⟩

/-! ## Keys 7 and 8 -/

/-- When `compareStudents` ends at its last `return`, its result is the status
expression of key 8 and the two TOEFL fields are equal. -/
theorem compareStudents_of_key8 (a b : Student) (h : decidingKey a b = 8) :
    a.toefl = b.toefl ∧
    compareStudents a b = boolToInt (b.status == 'D') - boolToInt (a.status == 'D') := by
  unfold decidingKey at h
  have h1 : a.year = b.year := by
    by_contra hc; rw [if_pos hc] at h; omega
  rw [if_neg (not_not.2 h1)] at h
  have h2 : wrapInt (monthToNum a.month - monthToNum b.month) = 0 := by
    by_contra hc; rw [if_pos hc] at h; omega
  rw [if_neg (not_not.2 h2)] at h
  have h3 : a.day = b.day := by
    by_contra hc; rw [if_pos hc] at h; omega
  rw [if_neg (not_not.2 h3)] at h
  have h4 : strcasecmp a.lastName b.lastName = 0 := by
    by_contra hc; rw [if_pos hc] at h; omega
  rw [if_neg (not_not.2 h4)] at h
  have h5 : strcasecmp a.firstName b.firstName = 0 := by
    by_contra hc; rw [if_pos hc] at h; omega
  rw [if_neg (not_not.2 h5)] at h
  have h6 : ¬ CFloat.ne a.gpa b.gpa = true := by
    intro hc; rw [if_pos hc] at h; omega
  rw [if_neg h6] at h
  have h7 : a.toefl = b.toefl := by
    by_contra hc; rw [if_pos hc] at h; omega
  refine ⟨h7, ?_⟩
  unfold compareStudents
  rw [if_neg (not_not.2 h1)]
  simp only [h2, h3, h4, h5, h6, h7, ne_eq, not_true_eq_false, if_false]
  rw [if_neg (by simp)]

/-- `decidingKey` follows `compareStudents`: the result of `compareStudents` is the
expression of the `return` statement that `decidingKey` names. -/
theorem compareStudents_at_key (a b : Student) :
    compareStudents a b =
      if decidingKey a b = 1 then wrapInt (a.year - b.year)
      else if decidingKey a b = 2 then wrapInt (monthToNum a.month - monthToNum b.month)
      else if decidingKey a b = 3 then wrapInt (a.day - b.day)
      else if decidingKey a b = 4 then strcasecmp a.lastName b.lastName
      else if decidingKey a b = 5 then strcasecmp a.firstName b.firstName
      else if decidingKey a b = 6 then (if CFloat.lt a.gpa b.gpa then 1 else -1)
      else if decidingKey a b = 7 then
        (if a.toefl = -1 then -1 else if b.toefl = -1 then 1
         else if a.toefl < b.toefl then 1 else -1)
      else boolToInt (b.status == 'D') - boolToInt (a.status == 'D') := by
  unfold compareStudents decidingKey
  by_cases h1 : a.year ≠ b.year
  · simp only [if_pos h1, if_true]
  · simp only [if_neg h1]
    by_cases h2 : wrapInt (monthToNum a.month - monthToNum b.month) ≠ 0
    · simp only [if_pos h2]
      simp
    · simp only [if_neg h2]
      by_cases h3 : a.day ≠ b.day
      · simp only [if_pos h3]
        simp
      · simp only [if_neg h3]
        by_cases h4 : strcasecmp a.lastName b.lastName ≠ 0
        · simp only [if_pos h4]
          simp
        · simp only [if_neg h4]
          by_cases h5 : strcasecmp a.firstName b.firstName ≠ 0
          · simp only [if_pos h5]
            simp
          · simp only [if_neg h5]
            by_cases h6 : CFloat.ne a.gpa b.gpa = true
            · simp only [if_pos h6]
              simp
            · simp only [if_neg h6]
              by_cases h7 : a.toefl ≠ b.toefl
              · simp only [if_pos h7]
                simp
              · simp only [if_neg h7]
                simp

/-- C15. TOEFL descending between real scores: for all records `a`, `b` that tie on
keys 1 to 6 and carry scores in `[0,120]` with `a.toefl > b.toefl`,
`compareStudents(a, b) < 0` and `compareStudents(b, a) > 0`, and the sort of the two
records puts `a`, the higher score, first in either input order. -/
theorem C15_toefl_descending (a b : Student) (h1 : a.year = b.year)
    (h2 : monthToNum a.month = monthToNum b.month) (h3 : a.day = b.day)
    (h4 : strcasecmp a.lastName b.lastName = 0) (h5 : strcasecmp a.firstName b.firstName = 0)
    (h6 : CFloat.ne a.gpa b.gpa = false)
    (ha0 : 0 ≤ a.toefl) (ha1 : a.toefl ≤ 120) (hb0 : 0 ≤ b.toefl) (hb1 : b.toefl ≤ 120)
    (hab : a.toefl > b.toefl) :
    compareStudents a b < 0 ∧ compareStudents b a > 0 ∧
    sortAll [a, b] = [a, b] ∧ sortAll [b, a] = [a, b] := by
  have hw : wrapInt 0 = 0 := by decide
  have h4r : strcasecmp b.lastName a.lastName = 0 := by
    rw [strcasecmp_swap a.lastName b.lastName, h4]; rfl
  have h5r : strcasecmp b.firstName a.firstName = 0 := by
    rw [strcasecmp_swap a.firstName b.firstName, h5]; rfl
  have h6r : CFloat.ne b.gpa a.gpa = false := by rw [cfloat_ne_comm, h6]
  have n1 : ¬ a.toefl = b.toefl := by omega
  have n2 : ¬ b.toefl = a.toefl := by omega
  have n3 : ¬ a.toefl = -1 := by omega
  have n4 : ¬ b.toefl = -1 := by omega
  have n5 : ¬ a.toefl < b.toefl := by omega
  have n6 : b.toefl < a.toefl := by omega
  have e1 : compareStudents a b = -1 := by
    unfold compareStudents
    simp [h1, h2, h3, h4, h5, h6, hw, n1, n3, n4, n5]
  have e2 : compareStudents b a = 1 := by
    unfold compareStudents
    simp [h1, h2, h3, h4r, h5r, h6r, hw, n2, n3, n4, n6]
  exact ⟨by omega, by omega, sortAll_pair_le a b (by omega), sortAll_pair_gt b a (by omega)⟩

/-- C15, on two international records with scores 95 and 80 and the same date, name
and GPA. -/
theorem C15_toefl_descending_witness :
    compareStudents recAmir { recAmir with toefl := 80 } < 0 ∧
    compareStudents { recAmir with toefl := 80 } recAmir > 0 ∧
    sortAll [recAmir, { recAmir with toefl := 80 }] = [recAmir, { recAmir with toefl := 80 }] ∧
    sortAll [{ recAmir with toefl := 80 }, recAmir] = [recAmir, { recAmir with toefl := 80 }] :=
  C15_toefl_descending recAmir { recAmir with toefl := 80 } (by decide) (by decide) (by decide)
    (by decide) (by decide) (by decide) (by decide) (by decide) (by decide) (by decide)
    (by decide)

/-- C16 as stated fails: two validated international records with the same date, name,
GPA and the same real score 95 tie on keys 1 to 7, so `compareStudents` ends at the
status tie-break although neither carries the absent sentinel `-1`. -/
theorem C16_key8_counterexample :
    Validated recAmir ∧ Validated { recAmir with firstName := "AMIR".toList } ∧
    decidingKey recAmir { recAmir with firstName := "AMIR".toList } = 8 ∧
    ¬ (recAmir.toefl = -1 ∧ { recAmir with firstName := "AMIR".toList }.toefl = -1) := by
  decide

/-- C16, amended. `compareStudents` ends at the status tie-break (key 8) only when the
two TOEFL fields are equal; its result is then the status expression, which is negative
whenever `a` has status `D` and `b` status `I`. On validated records key 8 is reached
only by two records of the same status, both with the sentinel `-1` or both with the
same score in `[0,120]`, and the result is `0`. -/
theorem C16_status_tiebreak (a b : Student) (h8 : decidingKey a b = 8) :
    a.toefl = b.toefl ∧
    compareStudents a b = boolToInt (b.status == 'D') - boolToInt (a.status == 'D') ∧
    (a.status = 'D' → b.status = 'I' → compareStudents a b < 0) ∧
    (Validated a → Validated b →
      a.status = b.status ∧ compareStudents a b = 0 ∧
      ((a.toefl = -1 ∧ b.toefl = -1 ∧ a.status = 'D') ∨
       (0 ≤ a.toefl ∧ a.toefl ≤ 120 ∧ a.status = 'I'))) := by
  obtain ⟨ht, hc⟩ := compareStudents_of_key8 a b h8
  refine ⟨ht, hc, ?_, ?_⟩
  · intro ha hb
    rw [hc, ha, hb]
    decide
  · intro va vb
    have sa := va.2.2.2.2.2.2
    have sb := vb.2.2.2.2.2.2
    rcases sa with ⟨sa1, sa2⟩ | ⟨sa1, sa2, sa3⟩ <;> rcases sb with ⟨sb1, sb2⟩ | ⟨sb1, sb2, sb3⟩
    · refine ⟨by rw [sa1, sb1], ?_, Or.inl ⟨sa2, sb2, sa1⟩⟩
      rw [hc, sa1, sb1]; decide
    · omega
    · omega
    · refine ⟨by rw [sa1, sb1], ?_, Or.inr ⟨sa2, sa3, sa1⟩⟩
      rw [hc, sa1, sb1]; decide

/-- C16, on two validated international records that tie with the real score 118. -/
theorem C16_status_tiebreak_witness :
    decidingKey recJaneI { recJaneI with lastName := "doe".toList } = 8 ∧
    recJaneI.toefl = { recJaneI with lastName := "doe".toList }.toefl ∧
    compareStudents recJaneI { recJaneI with lastName := "doe".toList }
      = boolToInt ({ recJaneI with lastName := "doe".toList }.status == 'D')
        - boolToInt (recJaneI.status == 'D') ∧
    (recJaneI.status = 'D' → { recJaneI with lastName := "doe".toList }.status = 'I' →
      compareStudents recJaneI { recJaneI with lastName := "doe".toList } < 0) ∧
    (Validated recJaneI → Validated { recJaneI with lastName := "doe".toList } →
      recJaneI.status = { recJaneI with lastName := "doe".toList }.status ∧
      compareStudents recJaneI { recJaneI with lastName := "doe".toList } = 0 ∧
      ((recJaneI.toefl = -1 ∧ { recJaneI with lastName := "doe".toList }.toefl = -1 ∧
          recJaneI.status = 'D') ∨
       (0 ≤ recJaneI.toefl ∧ recJaneI.toefl ≤ 120 ∧ recJaneI.status = 'I'))) :=
  ⟨by decide, C16_status_tiebreak recJaneI { recJaneI with lastName := "doe".toList } (by decide)⟩

/-! ## The frame of the sort -/

theorem split_three (arr : List Student) (l n : Nat) :
    arr = arr.take l ++ (arr.drop l).take n ++ (arr.drop l).drop n := by
  rw [List.append_assoc, List.take_append_drop, List.take_append_drop]

/-- `mergeSort` on an index range inside the array: the run is replaced by its
functional merge sort, the elements before and after it stay. -/
theorem mergeSort_range (arr : List Student) (left right : Int) (h0 : 0 ≤ left)
    (h1 : left ≤ right + 1) (h2 : right < arr.length) :
    mergeSort arr left right
      = arr.take left.toNat
        ++ gsort leS ((arr.drop left.toNat).take (right - left + 1).toNat)
        ++ (arr.drop left.toNat).drop (right - left + 1).toNat := by
  have hA : ((arr.take left.toNat).length : Int) = left := by
    rw [List.length_take]; omega
  have hS : (((arr.drop left.toNat).take (right - left + 1).toNat).length : Int)
      = right - left + 1 := by
    rw [List.length_take, List.length_drop]; omega
  have hr : right = ((arr.take left.toNat).length : Int)
      + (((arr.drop left.toNat).take (right - left + 1).toNat).length : Int) - 1 := by
    rw [hA, hS]; omega
  have key := mergeSort_append (arr.take left.toNat)
    ((arr.drop left.toNat).take (right - left + 1).toNat)
    ((arr.drop left.toNat).drop (right - left + 1).toNat)
  rw [← split_three, ← hr, hA] at key
  exact key

/-- `merge` on two adjacent index ranges inside the array: the two runs are replaced by
their functional merge, the elements before and after them stay. -/
theorem merge_range (arr : List Student) (left mid right : Int) (h0 : 0 ≤ left)
    (h1 : left ≤ mid + 1) (h2 : mid ≤ right) (h3 : right < arr.length) :
    merge arr left mid right
      = arr.take left.toNat
        ++ mergeLists leS ((arr.drop left.toNat).take (mid - left + 1).toNat)
            (((arr.drop left.toNat).drop (mid - left + 1).toNat).take (right - mid).toNat)
        ++ (((arr.drop left.toNat).drop (mid - left + 1).toNat).drop (right - mid).toNat) := by
  have hA : ((arr.take left.toNat).length : Int) = left := by
    rw [List.length_take]; omega
  have hL : (((arr.drop left.toNat).take (mid - left + 1).toNat).length : Int)
      = mid - left + 1 := by
    rw [List.length_take, List.length_drop]; omega
  have hR : ((((arr.drop left.toNat).drop (mid - left + 1).toNat).take
      (right - mid).toNat).length : Int) = right - mid := by
    rw [List.length_take, List.length_drop, List.length_drop]; omega
  have key := merge_append (arr.take left.toNat)
    ((arr.drop left.toNat).take (mid - left + 1).toNat)
    (((arr.drop left.toNat).drop (mid - left + 1).toNat).take (right - mid).toNat)
    (((arr.drop left.toNat).drop (mid - left + 1).toNat).drop (right - mid).toNat)
  have e : arr.take left.toNat ++ (arr.drop left.toNat).take (mid - left + 1).toNat
      ++ (((arr.drop left.toNat).drop (mid - left + 1).toNat).take (right - mid).toNat)
      ++ (((arr.drop left.toNat).drop (mid - left + 1).toNat).drop (right - mid).toNat)
      = arr := by
    rw [List.append_assoc, List.take_append_drop, List.append_assoc, List.take_append_drop,
      List.take_append_drop]
  have hm : (left : Int) + (mid - left + 1) - 1 = mid := by omega
  have hr : (left : Int) + (mid - left + 1) + (right - mid) - 1 = right := by omega
  rw [e, hA, hL, hR, hm, hr] at key
  exact key

/-- Two arrays that differ only inside a run of the same length agree outside it. -/
theorem rd_outside (A S T C : List Student) (hl : T.length = S.length) (i : Int) (hi : 0 ≤ i)
    (ho : i < (A.length : Int) ∨ (A.length : Int) + (S.length : Int) ≤ i) :
    rd (A ++ T ++ C) i = rd (A ++ S ++ C) i := by
  unfold rd
  rcases ho with ho | ho
  · have h : i.toNat < A.length := by omega
    rw [List.append_assoc, List.append_assoc, List.getD_append _ _ _ _ h,
      List.getD_append _ _ _ _ h]
  · have h1 : (A ++ T).length ≤ i.toNat := by rw [List.length_append]; omega
    have h2 : (A ++ S).length ≤ i.toNat := by rw [List.length_append]; omega
    rw [List.getD_append_right _ _ _ _ h1, List.getD_append_right _ _ _ _ h2,
      List.length_append, List.length_append, hl]

/-- C20. Frame of the sort. For every array and indices `0 <= left <= right < n`,
`mergeSort(arr, left, right)` keeps the length and leaves every element at an index
outside `[left, right]` unchanged; so does `merge(arr, left, mid, right)` for
`left <= mid < right`; and `mergeSort` with `left >= right` leaves the whole array
unchanged. The records need not be validated. -/
theorem C20_sort_frame (arr : List Student) (left right : Int) :
    (0 ≤ left → left ≤ right → right < arr.length →
      (mergeSort arr left right).length = arr.length ∧
      ∀ i : Int, 0 ≤ i → i < arr.length → (i < left ∨ right < i) →
        rd (mergeSort arr left right) i = rd arr i) ∧
    (∀ mid : Int, 0 ≤ left → left ≤ mid → mid < right → right < arr.length →
      (merge arr left mid right).length = arr.length ∧
      ∀ i : Int, 0 ≤ i → i < arr.length → (i < left ∨ right < i) →
        rd (merge arr left mid right) i = rd arr i) ∧
    (right ≤ left → mergeSort arr left right = arr) := by
  refine ⟨?_, ?_, ?_⟩
  · intro h0 h1 h2
    have key := mergeSort_range arr left right h0 (by omega) h2
    have hA : ((arr.take left.toNat).length : Int) = left := by
      rw [List.length_take]; omega
    have hS : (((arr.drop left.toNat).take (right - left + 1).toNat).length : Int)
        = right - left + 1 := by
      rw [List.length_take, List.length_drop]; omega
    have hl : (gsort leS ((arr.drop left.toNat).take (right - left + 1).toNat)).length
        = ((arr.drop left.toNat).take (right - left + 1).toNat).length :=
      (gsort_perm _).length_eq
    constructor
    · rw [key, List.length_append, List.length_append, hl, ← List.length_append,
        ← List.length_append, ← split_three]
    · intro i hi0 _ hio
      rw [key]
      have := rd_outside (arr.take left.toNat)
        ((arr.drop left.toNat).take (right - left + 1).toNat) _
        ((arr.drop left.toNat).drop (right - left + 1).toNat) hl i hi0 (by omega)
      rw [this, ← split_three]
  · intro mid h0 h1 h2 h3
    have key := merge_range arr left mid right h0 (by omega) (by omega) h3
    have hA : ((arr.take left.toNat).length : Int) = left := by
      rw [List.length_take]; omega
    have hL : (((arr.drop left.toNat).take (mid - left + 1).toNat).length : Int)
        = mid - left + 1 := by
      rw [List.length_take, List.length_drop]; omega
    have hR : ((((arr.drop left.toNat).drop (mid - left + 1).toNat).take
        (right - mid).toNat).length : Int) = right - mid := by
      rw [List.length_take, List.length_drop, List.length_drop]; omega
    have hl : (mergeLists leS ((arr.drop left.toNat).take (mid - left + 1).toNat)
        (((arr.drop left.toNat).drop (mid - left + 1).toNat).take (right - mid).toNat)).length
        = ((arr.drop left.toNat).take (mid - left + 1).toNat
          ++ ((arr.drop left.toNat).drop (mid - left + 1).toNat).take (right - mid).toNat).length :=
      (mergeLists_perm _ _).length_eq
    have e : arr.take left.toNat
        ++ ((arr.drop left.toNat).take (mid - left + 1).toNat
          ++ ((arr.drop left.toNat).drop (mid - left + 1).toNat).take (right - mid).toNat)
        ++ (((arr.drop left.toNat).drop (mid - left + 1).toNat).drop (right - mid).toNat)
        = arr := by
      rw [List.append_assoc, List.append_assoc, List.take_append_drop, List.take_append_drop,
        List.take_append_drop]
    constructor
    · rw [key, List.length_append, List.length_append, hl, ← List.length_append,
        ← List.length_append, e]
    · intro i hi0 _ hio
      rw [key]
      have := rd_outside (arr.take left.toNat)
        ((arr.drop left.toNat).take (mid - left + 1).toNat
          ++ ((arr.drop left.toNat).drop (mid - left + 1).toNat).take (right - mid).toNat) _
        (((arr.drop left.toNat).drop (mid - left + 1).toNat).drop (right - mid).toNat)
        hl i hi0 (by rw [List.length_append]; omega)
      rw [this, e]
  · intro h
    rw [mergeSort_eq, if_neg (by omega)]

/-- C20, on an array of four records with the range `[1, 2]`, the split `mid = 1`, and
the empty range `left = 2`, `right = 1`. -/
theorem C20_sort_frame_witness :
    ((0 : Int) ≤ 1 ∧ (1 : Int) ≤ 2 ∧ (2 : Int) < ([recAmir, recJane, recBob, recJane].length : Int)) ∧
    ((mergeSort [recAmir, recJane, recBob, recJane] 1 2).length
        = [recAmir, recJane, recBob, recJane].length ∧
      ∀ i : Int, 0 ≤ i → i < ([recAmir, recJane, recBob, recJane].length : Int) →
        (i < 1 ∨ 2 < i) →
        rd (mergeSort [recAmir, recJane, recBob, recJane] 1 2) i
          = rd [recAmir, recJane, recBob, recJane] i) ∧
    ((1 : Int) ≤ 1 ∧ (1 : Int) < 2) ∧
    ((merge [recAmir, recJane, recBob, recJane] 1 1 2).length
        = [recAmir, recJane, recBob, recJane].length ∧
      ∀ i : Int, 0 ≤ i → i < ([recAmir, recJane, recBob, recJane].length : Int) →
        (i < 1 ∨ 2 < i) →
        rd (merge [recAmir, recJane, recBob, recJane] 1 1 2) i
          = rd [recAmir, recJane, recBob, recJane] i) ∧
    (1 : Int) ≤ 2 ∧
    mergeSort [recAmir, recJane, recBob, recJane] 2 1 = [recAmir, recJane, recBob, recJane] :=
  ⟨by decide,
   (C20_sort_frame [recAmir, recJane, recBob, recJane] 1 2).1 (by decide) (by decide) (by decide),
   by decide,
   (C20_sort_frame [recAmir, recJane, recBob, recJane] 1 2).2.1 1 (by decide) (by decide)
     (by decide) (by decide),
   by decide,
   (C20_sort_frame [recAmir, recJane, recBob, recJane] 2 1).2.2 (by decide)⟩

/-! ## The line parser -/

/-- The record that `parseLine` builds from a scan and a TOEFL value. -/
theorem parseTail_eq_some (sc : Scan) (t : Int) (r : Student) :
    parseTail sc t = some r ↔
      (isValidDate sc.monthStr sc.day sc.year = true ∧
       (CFloat.lt sc.gpa (CFloat.fin 0) || CFloat.lt (CFloat.fin gpaMax) sc.gpa) = false ∧
       r = { firstName := sc.firstName, lastName := sc.lastName, month := sc.monthStr,
             day := sc.day, year := sc.year, gpa := sc.gpa, status := sc.status, toefl := t }) := by
  unfold parseTail
  cases hd : isValidDate sc.monthStr sc.day sc.year
  · simp
  · cases hg : (CFloat.lt sc.gpa (CFloat.fin 0) || CFloat.lt (CFloat.fin gpaMax) sc.gpa)
    · simp only [Bool.not_true, Bool.false_eq_true, if_false, Option.some.injEq, true_and]
      exact ⟨fun h => h.symm, fun h => h.symm⟩
    · simp

/-- `parseLine` succeeds in exactly three cases, each with its TOEFL value, and only
when the date and the GPA pass their checks. -/
theorem parseLine_eq_some (sc : Scan) (r : Student) :
    parseLine sc = some r ↔
      ∃ t : Int,
        ((sc.result = 8 ∧ sc.status = 'I' ∧ 0 ≤ sc.toeflScore ∧ sc.toeflScore ≤ 120 ∧
            t = sc.toeflScore) ∨
         (sc.result = 7 ∧ sc.status = 'D' ∧ t = -1) ∨
         (sc.result = 7 ∧ sc.status = 'I' ∧ t = 0)) ∧
        parseTail sc t = some r := by
  unfold parseLine
  by_cases h8 : sc.result = 8 ∧ sc.status = 'I'
  · rw [if_pos h8]
    by_cases ht : sc.toeflScore < 0 ∨ sc.toeflScore > 120
    · rw [if_pos ht]
      constructor
      · intro h; cases h
      · rintro ⟨t, h, _⟩
        rcases h with h | h | h <;> omega
    · rw [if_neg ht]
      constructor
      · intro h
        exact ⟨sc.toeflScore, Or.inl ⟨h8.1, h8.2, by omega, by omega, rfl⟩, h⟩
      · rintro ⟨t, h, hp⟩
        rcases h with h | h | h
        · rw [h.2.2.2.2] at hp; exact hp
        · omega
        · omega
  · rw [if_neg h8]
    by_cases hD : sc.result = 7 ∧ sc.status = 'D'
    · rw [if_pos hD]
      have hne : ¬ sc.status = 'I' := by rw [hD.2]; decide
      constructor
      · intro h; exact ⟨-1, Or.inr (Or.inl ⟨hD.1, hD.2, rfl⟩), h⟩
      · rintro ⟨t, h, hp⟩
        rcases h with h | h | h
        · exact absurd h.2.1 hne
        · rw [h.2.2] at hp; exact hp
        · exact absurd h.2.1 hne
    · rw [if_neg hD]
      by_cases hI : sc.result = 7 ∧ sc.status = 'I'
      · rw [if_pos hI]
        constructor
        · intro h; exact ⟨0, Or.inr (Or.inr ⟨hI.1, hI.2, rfl⟩), h⟩
        · rintro ⟨t, h, hp⟩
          rcases h with h | h | h
          · omega
          · exact absurd ⟨h.1, h.2.1⟩ hD
          · rw [h.2.2] at hp; exact hp
      · rw [if_neg hI]
        constructor
        · intro h; cases h
        · rintro ⟨t, h, _⟩
          rcases h with h | h | h
          · exact absurd ⟨h.1, h.2.1⟩ h8
          · exact absurd ⟨h.1, h.2.1⟩ hD
          · exact absurd ⟨h.1, h.2.1⟩ hI

/-- C13. TOEFL defaulting in `parseLine`, for every scan whose date and GPA pass their
checks: with 7 fields scanned and status `I` the record has `toefl == 0`; with 7 fields
and status `D` it has `toefl == -1`; with 8 fields, status `I` and score `t` it has
`toefl == t` when `0 <= t <= 120` and the line is rejected otherwise. The other fields
of the record are those scanned. -/
theorem C13_toefl_default (sc : Scan)
    (hd : isValidDate sc.monthStr sc.day sc.year = true)
    (hg : (CFloat.lt sc.gpa (CFloat.fin 0) || CFloat.lt (CFloat.fin gpaMax) sc.gpa) = false) :
    (sc.result = 7 → sc.status = 'I' →
      parseLine sc = some
        { firstName := sc.firstName, lastName := sc.lastName, month := sc.monthStr,
          day := sc.day, year := sc.year, gpa := sc.gpa, status := 'I', toefl := 0 }) ∧
    (sc.result = 7 → sc.status = 'D' →
      parseLine sc = some
        { firstName := sc.firstName, lastName := sc.lastName, month := sc.monthStr,
          day := sc.day, year := sc.year, gpa := sc.gpa, status := 'D', toefl := -1 }) ∧
    (sc.result = 8 → sc.status = 'I' → 0 ≤ sc.toeflScore → sc.toeflScore ≤ 120 →
      parseLine sc = some
        { firstName := sc.firstName, lastName := sc.lastName, month := sc.monthStr,
          day := sc.day, year := sc.year, gpa := sc.gpa, status := 'I',
          toefl := sc.toeflScore }) ∧
    (sc.result = 8 → sc.status = 'I' → (sc.toeflScore < 0 ∨ 120 < sc.toeflScore) →
      parseLine sc = none) := by
  refine ⟨?_, ?_, ?_, ?_⟩
  · intro h7 hI
    rw [parseLine_eq_some]
    refine ⟨0, Or.inr (Or.inr ⟨h7, hI, rfl⟩), ?_⟩
    rw [parseTail_eq_some]
    exact ⟨hd, hg, by rw [hI]⟩
  · intro h7 hD
    rw [parseLine_eq_some]
    refine ⟨-1, Or.inr (Or.inl ⟨h7, hD, rfl⟩), ?_⟩
    rw [parseTail_eq_some]
    exact ⟨hd, hg, by rw [hD]⟩
  · intro h8 hI h0 h1
    rw [parseLine_eq_some]
    refine ⟨sc.toeflScore, Or.inl ⟨h8, hI, h0, h1, rfl⟩, ?_⟩
    rw [parseTail_eq_some]
    exact ⟨hd, hg, by rw [hI]⟩
  · intro h8 hI ht
    unfold parseLine
    rw [if_pos ⟨h8, hI⟩, if_pos (by omega)]

/-- C13, on the scan of `Amir Lee Mar-5-1999 3.800 I 95`: eight fields, status `I`,
score 95. -/
theorem C13_toefl_default_witness :
    isValidDate scanAmirLee.monthStr scanAmirLee.day scanAmirLee.year = true ∧
    (CFloat.lt scanAmirLee.gpa (CFloat.fin 0)
      || CFloat.lt (CFloat.fin gpaMax) scanAmirLee.gpa) = false ∧
    scanAmirLee.result = 8 ∧ scanAmirLee.status = 'I' ∧
    0 ≤ scanAmirLee.toeflScore ∧ scanAmirLee.toeflScore ≤ 120 ∧
    parseLine scanAmirLee = some
      { firstName := scanAmirLee.firstName, lastName := scanAmirLee.lastName,
        month := scanAmirLee.monthStr, day := scanAmirLee.day, year := scanAmirLee.year,
        gpa := scanAmirLee.gpa, status := 'I', toefl := scanAmirLee.toeflScore } :=
  ⟨by decide, by decide, by decide, by decide, by decide, by decide,
   (C13_toefl_default scanAmirLee (by decide) (by decide)).2.2.1 (by decide) (by decide)
     (by decide) (by decide)⟩

/-- The TOEFL rules of `parseLine` on four lines: an `I` line without a score gets
`toefl == 0`, a `D` line `-1`, an `I` line with the score 120 keeps it, and an `I` line
with the score 121 is rejected. -/
theorem toefl_default_lines :
    (sscanfLine "Amir Lee Mar-5-1999 3.800 I\n".toList).bind parseLine
      = some { amirLee with toefl := 0 } ∧
    (sscanfLine lineJane).bind parseLine = some janeDoe ∧
    (sscanfLine "Amir Lee Mar-5-1999 3.800 I 120\n".toList).bind parseLine
      = some { amirLee with toefl := 120 } ∧
    (sscanfLine "Amir Lee Mar-5-1999 3.800 I 121\n".toList).map parseLine = some none ∧
    (sscanfLine "Amir Lee Mar-5-1999 3.800 I -1\n".toList).map parseLine = some none := by
  decide

/-- C19 as stated fails: the lines `Jane Doe mar-5-1999 3.800 D` and
`Jane Doe MAR-5-1999 3.800 D` differ only in the letter case of the month and are both
accepted, and the month fields of their records are `mar` and `MAR`: different from each
other and from the abbreviation `Mar` of the table. -/
theorem C19_month_counterexample :
    sscanfLine lineMonthLower = some { scanJaneDoe with monthStr := "mar".toList } ∧
    sscanfLine lineMonthUpper = some { scanJaneDoe with monthStr := "MAR".toList } ∧
    parseLine { scanJaneDoe with monthStr := "mar".toList }
      = some { janeDoe with month := "mar".toList } ∧
    parseLine { scanJaneDoe with monthStr := "MAR".toList }
      = some { janeDoe with month := "MAR".toList } ∧
    { janeDoe with month := "mar".toList }.month ≠ { janeDoe with month := "MAR".toList }.month ∧
    { janeDoe with month := "mar".toList }.month ≠ "Mar".toList ∧
    "Mar".toList ∈ months := by
  decide

/-- C19, amended. `parseLine` stores the month as it was scanned, letter case included.
If a scan is accepted, the same scan with another spelling of its month (the same text
up to letter case) is accepted too, its record has that spelling as month field and is
the same in every other field, and the two month fields have the same month number. -/
theorem C19_month_as_scanned (sc : Scan) (m2 : List Char) (r : Student)
    (hp : parseLine sc = some r) (hm : foldCase m2 = foldCase sc.monthStr) :
    r.month = sc.monthStr ∧
    parseLine { sc with monthStr := m2 } = some { r with month := m2 } ∧
    monthToNum m2 = monthToNum r.month := by
  obtain ⟨t, ht, hpt⟩ := (parseLine_eq_some sc r).1 hp
  obtain ⟨hd, hg, hr⟩ := (parseTail_eq_some sc t r).1 hpt
  have hnum : monthToNum m2 = monthToNum sc.monthStr := monthToNumLoop_congr m2 _ hm months 0
  have hd2 : isValidDate m2 sc.day sc.year = true := by
    rw [isValidDate_iff] at hd ⊢
    rw [hnum]
    exact hd
  refine ⟨by rw [hr], ?_, by rw [hr]; exact hnum⟩
  rw [parseLine_eq_some]
  refine ⟨t, ht, ?_⟩
  rw [parseTail_eq_some]
  exact ⟨hd2, hg, by rw [hr]⟩

/-- C19 amended, on the accepted scan of `Jane Doe Mar-5-1999 3.800 D` and the spelling
`mAR`. -/
theorem C19_month_as_scanned_witness :
    parseLine scanJaneDoe = some janeDoe ∧
    foldCase "mAR".toList = foldCase scanJaneDoe.monthStr ∧
    janeDoe.month = scanJaneDoe.monthStr ∧
    parseLine { scanJaneDoe with monthStr := "mAR".toList }
      = some { janeDoe with month := "mAR".toList } ∧
    monthToNum "mAR".toList = monthToNum janeDoe.month :=
  ⟨by decide, by decide,
   C19_month_as_scanned scanJaneDoe "mAR".toList janeDoe (by decide) (by decide)⟩

/-! ## The GPA check -/

/-- A scan whose GPA is a number above the `double` constant `4.301` is rejected. -/
theorem parseLine_gpa_above (sc : Scan) (q : ℚ) (h : sc.gpa = CFloat.fin q) (hq : gpaMax < q) :
    parseLine sc = none := by
  cases hp : parseLine sc with
  | none => rfl
  | some r =>
    obtain ⟨t, _, hpt⟩ := (parseLine_eq_some sc r).1 hp
    obtain ⟨_, hg, _⟩ := (parseTail_eq_some sc t r).1 hpt
    rw [h] at hg
    simp [CFloat.lt, CFloat.isNaN, CFloat.side, CFloat.value, hq] at hg

/-- The `float` that the conversion gives for `4.301` lies above `4.301`, within half a
unit of the last place (`2^-22`) of it, and above the `double` constant `4.301`. -/
theorem float4301_facts :
    roundToFloat false 4301 1000 = float4301 ∧
    (4301 / 1000 : ℚ) < 9019851 / 2097152 ∧
    (9019851 / 2097152 : ℚ) - 4301 / 1000 < 1 / 2 ^ 22 ∧
    gpaMax < mkRat 9019851 2097152 ∧
    (4301 / 1000 : ℚ) < gpaMax := by
  refine ⟨by decide, by norm_num, by norm_num, by decide, ?_⟩
  have e : gpaMax = 2421247749665063 / 562949953421312 := by
    unfold gpaMax
    rw [Rat.mkRat_eq_div]
    norm_num
  rw [e]
  norm_num

/-- The `float` `9019851 / 2^21` is the `float` nearest to `4.301`: every other value
of a `float` is farther from `4.301`. -/
theorem float4301_nearest (q : ℚ) (hq : IsBinary32 q) (hne : q ≠ 9019851 / 2097152) :
    |(9019851 / 2097152 : ℚ) - 4301 / 1000| < |q - 4301 / 1000| := by
  obtain ⟨m, e, hm, _, rfl⟩ := hq
  have hd : |(9019851 / 2097152 : ℚ) - 4301 / 1000| = 31 / 262144000 := by
    rw [abs_of_pos (by norm_num)]
    norm_num
  rw [hd]
  have hm1 : (m : ℚ) < 2 ^ 24 := by
    have : m < 2 ^ 24 := lt_of_le_of_lt (le_abs_self m) hm
    exact_mod_cast this
  have h2pos : (0 : ℚ) < (2 : ℚ) ^ e := zpow_pos (by norm_num) e
  by_cases he : e ≤ -22
  · have hp : (2 : ℚ) ^ e ≤ (2 : ℚ) ^ (-22 : ℤ) := zpow_le_zpow_right₀ (by norm_num) he
    have hv : (2 : ℚ) ^ (-22 : ℤ) = 1 / 4194304 := by norm_num [zpow_neg]
    have hlt : (m : ℚ) * (2 : ℚ) ^ e ≤ 4 := by
      by_cases hmpos : (0 : ℚ) < (m : ℚ)
      · have : (m : ℚ) * (2 : ℚ) ^ e ≤ 2 ^ 24 * (1 / 4194304) := by
          rw [← hv]
          exact mul_le_mul hm1.le hp h2pos.le (by norm_num)
        norm_num at this
        linarith
      · rw [not_lt] at hmpos
        have : (m : ℚ) * (2 : ℚ) ^ e ≤ 0 := mul_nonpos_of_nonpos_of_nonneg hmpos h2pos.le
        linarith
    rw [abs_of_neg (by linarith)]
    linarith
  · obtain ⟨k, hk⟩ : ∃ k : ℕ, e = (k : ℤ) - 21 := ⟨(e + 21).toNat, by omega⟩
    have hpow : (2 : ℚ) ^ e = (2 : ℚ) ^ k / 2097152 := by
      rw [hk, zpow_sub₀ (by norm_num : (2 : ℚ) ≠ 0), zpow_natCast]
      norm_num
    have hN : (m : ℚ) * (2 : ℚ) ^ e = ((m * 2 ^ k : ℤ) : ℚ) / 2097152 := by
      rw [hpow]
      push_cast
      ring
    rw [hN] at hne ⊢
    have hne2 : (m * 2 ^ k : ℤ) ≠ 9019851 := by
      intro h
      apply hne
      rw [h]
      norm_num
    rcases lt_or_gt_of_ne hne2 with hlt | hgt
    · have h3 : (m * 2 ^ k : ℤ) ≤ 9019850 := by omega
      have h4 : ((m * 2 ^ k : ℤ) : ℚ) ≤ 9019850 := by exact_mod_cast h3
      have h5 : ((m * 2 ^ k : ℤ) : ℚ) / 2097152 ≤ 9019850 / 2097152 :=
        div_le_div_of_nonneg_right h4 (by norm_num)
      rw [abs_of_neg (by linarith)]
      linarith
    · have h3 : (9019852 : ℤ) ≤ m * 2 ^ k := by omega
      have h4 : (9019852 : ℚ) ≤ ((m * 2 ^ k : ℤ) : ℚ) := by exact_mod_cast h3
      have h5 : (9019852 / 2097152 : ℚ) ≤ ((m * 2 ^ k : ℤ) : ℚ) / 2097152 :=
        div_le_div_of_nonneg_right h4 (by norm_num)
      rw [abs_of_pos (by linarith)]
      linarith

/-- The value `9019851 / 2^21` is a value of a `float`. -/
theorem float4301_binary32 : IsBinary32 (9019851 / 2097152) :=
  ⟨9019851, -21, by norm_num, by norm_num, by norm_num [zpow_neg]⟩

/-- C11. The code at the boundary. The GPA field `4.301` is converted to the `float`
`9019851 / 2^21`, which is greater than the `double` constant `4.301`, so the check
`gpa > 4.301` holds and the line is rejected, as is every scan with that GPA; the
lines with the fields `4.300` and `4.302` are accepted and rejected as expected; on
the line with `4.301` `main` writes the error line and exits with `1`. -/
theorem C11_gpa_4301_rejected :
    sscanfLine lineGpa4301 = some { scanJaneDoe with gpa := float4301 } ∧
    parseLine { scanJaneDoe with gpa := float4301 } = none ∧
    (∀ sc : Scan, sc.gpa = float4301 → parseLine sc = none) ∧
    sscanfLine lineGpa4300 = some { scanJaneDoe with gpa := roundToFloat false 4300 1000 } ∧
    parseLine { scanJaneDoe with gpa := roundToFloat false 4300 1000 }
      = some { janeDoe with gpa := roundToFloat false 4300 1000 } ∧
    sscanfLine lineGpa4302 = some { scanJaneDoe with gpa := roundToFloat false 4302 1000 } ∧
    parseLine { scanJaneDoe with gpa := roundToFloat false 4302 1000 } = none ∧
    (∀ sscanf : List Char → Scan, sscanf lineGpa4301 = { scanJaneDoe with gpa := float4301 } →
      main sscanf 3 [lineGpa4301] = ([OutLine.error], 1)) := by
  refine ⟨by decide, by decide, ?_, by decide, by decide, by decide, by decide, ?_⟩
  · intro sc h
    exact parseLine_gpa_above sc _ h float4301_facts.2.2.2.1
  · intro sscanf h
    have hp : parseLine { scanJaneDoe with gpa := float4301 } = none := by decide
    have hno : ¬ ((3 : Int) < 1 ∨ (3 : Int) > 3) := by decide
    unfold main
    rw [if_neg hno]
    simp only [readLoop, h, hp]

/-! ## What an accepted record satisfies -/

/-- Every record that `parseLine` accepts has a recognised month, a day in `[1,31]`, a
year in `[1950,2010]`, status `D` with TOEFL `-1` or status `I` with a TOEFL in
`[0,120]`; and its GPA, unless it is a NaN, is a number between `0` and the `double`
constant `4.301`. -/
theorem parseLine_invariant (sc : Scan) (r : Student) (hp : parseLine sc = some r) :
    monthToNum r.month ≠ -1 ∧ 1 ≤ r.day ∧ r.day ≤ 31 ∧ 1950 ≤ r.year ∧ r.year ≤ 2010 ∧
    ((r.status = 'D' ∧ r.toefl = -1) ∨ (r.status = 'I' ∧ 0 ≤ r.toefl ∧ r.toefl ≤ 120)) ∧
    (r.gpa.isNaN = false → r.gpa.side = 0 ∧ 0 ≤ r.gpa.value ∧ r.gpa.value ≤ gpaMax) := by
  obtain ⟨t, ht, hpt⟩ := (parseLine_eq_some sc r).1 hp
  obtain ⟨hd, hg, hr⟩ := (parseTail_eq_some sc t r).1 hpt
  rw [isValidDate_iff] at hd
  subst hr
  refine ⟨hd.1, hd.2.2.2.1, hd.2.2.2.2, hd.2.1, hd.2.2.1, ?_, ?_⟩
  · rcases ht with h | h | h
    · have e := h.2.2.2.2
      subst e
      exact Or.inr ⟨h.2.1, h.2.2.1, h.2.2.2.1⟩
    · exact Or.inl ⟨h.2.1, h.2.2⟩
    · have e := h.2.2
      subst e
      exact Or.inr ⟨h.2.1, le_refl (0 : Int), (by decide : (0 : Int) ≤ 120)⟩
  · intro hn
    show sc.gpa.side = 0 ∧ 0 ≤ sc.gpa.value ∧ sc.gpa.value ≤ gpaMax
    have hn2 : sc.gpa.isNaN = false := hn
    cases hgp : sc.gpa with
    | nan => rw [hgp] at hn2; simp [CFloat.isNaN] at hn2
    | negInf => rw [hgp] at hg; simp [CFloat.lt, CFloat.isNaN, CFloat.side] at hg
    | posInf => rw [hgp] at hg; simp [CFloat.lt, CFloat.isNaN, CFloat.side] at hg
    | negZero =>
      have hpos : (0 : ℚ) ≤ gpaMax := by unfold gpaMax; decide
      simp [CFloat.side, CFloat.value, hpos]
    | fin q =>
      rw [hgp] at hg
      simp only [CFloat.lt, CFloat.isNaN, CFloat.side, CFloat.value, Bool.not_false,
        Bool.true_and, lt_self_iff_false, decide_False, decide_True, Bool.false_or,
        Bool.or_eq_false_iff, decide_eq_false_iff_not, not_lt] at hg
      exact ⟨rfl, hg.1, hg.2⟩

/-- C17. The code on a NaN. The line `Jane Doe Mar-5-1999 nan D` scans with a NaN in
the GPA field; both comparisons of the GPA check are false on a NaN, so `parseLine`
accepts the line, and its record, whose GPA is no number between `0.0` and `4.301`,
is collected by the read loop and handed to the sort; `compareStudents` of that record
with itself is `-1`. -/
theorem C17_nan_accepted :
    sscanfLine lineGpaNaN = some { scanJaneDoe with gpa := CFloat.nan } ∧
    parseLine { scanJaneDoe with gpa := CFloat.nan } = some { janeDoe with gpa := CFloat.nan } ∧
    ¬ GpaInRange ({ janeDoe with gpa := CFloat.nan } : Student).gpa ∧
    ¬ Validated { janeDoe with gpa := CFloat.nan } ∧
    (∀ sscanf : List Char → Scan, sscanf lineGpaNaN = { scanJaneDoe with gpa := CFloat.nan } →
      readLoop sscanf 3 [lineGpaNaN] [] = some [{ janeDoe with gpa := CFloat.nan }]) ∧
    compareStudents { janeDoe with gpa := CFloat.nan } { janeDoe with gpa := CFloat.nan } = -1 := by
  refine ⟨by decide, by decide, by decide, by decide, ?_, by decide⟩
  intro sscanf h
  have hp : parseLine { scanJaneDoe with gpa := CFloat.nan }
      = some { janeDoe with gpa := CFloat.nan } := by decide
  have hs : skipped 3 { janeDoe with gpa := CFloat.nan } = false := by decide
  simp only [readLoop, h, hp, hs, List.nil_append]
  rfl

/-! ## The scenario of the two lines -/

/-- C14. The lines `Jane Doe Mar-5-1999 3.800 D` and `Amir Lee Mar-5-1999 3.800 I 95`
scan and parse to the records `janeDoe` and `amirLee`, `compareStudents(Jane, Amir)` is
negative (the last names `Doe` and `Lee` decide, at key 4), and with option 3 the
output lists Jane's line before Amir's for either order of the two input lines, for
every scanning function that scans the two lines as the C library does. -/
theorem C14_scenario :
    sscanfLine lineJane = some scanJaneDoe ∧ sscanfLine lineAmir = some scanAmirLee ∧
    parseLine scanJaneDoe = some janeDoe ∧ parseLine scanAmirLee = some amirLee ∧
    compareStudents janeDoe amirLee < 0 ∧ decidingKey janeDoe amirLee = 4 ∧
    ∀ sscanf : List Char → Scan, sscanf lineJane = scanJaneDoe → sscanf lineAmir = scanAmirLee →
      main sscanf 3 [lineJane, lineAmir]
        = ([OutLine.record janeDoe none, OutLine.record amirLee (some 95)], 0) ∧
      main sscanf 3 [lineAmir, lineJane]
        = ([OutLine.record janeDoe none, OutLine.record amirLee (some 95)], 0) := by
  refine ⟨by decide, by decide, by decide, by decide, by decide, by decide, ?_⟩
  intro sscanf h1 h2
  have p1 : parseLine scanJaneDoe = some janeDoe := by decide
  have p2 : parseLine scanAmirLee = some amirLee := by decide
  have k1 : skipped 3 janeDoe = false := by decide
  have k2 : skipped 3 amirLee = false := by decide
  have s1 : (sortAll [janeDoe, amirLee]).map writeRecord
      = [OutLine.record janeDoe none, OutLine.record amirLee (some 95)] := by decide
  have s2 : (sortAll [amirLee, janeDoe]).map writeRecord
      = [OutLine.record janeDoe none, OutLine.record amirLee (some 95)] := by decide
  have hno : ¬ ((3 : Int) < 1 ∨ (3 : Int) > 3) := by decide
  constructor
  · unfold main
    rw [if_neg hno]
    simp only [readLoop, h1, h2, p1, p2, k1, k2, List.nil_append, List.cons_append,
      Bool.false_eq_true, if_false, s1]
  · unfold main
    rw [if_neg hno]
    simp only [readLoop, h1, h2, p1, p2, k1, k2, List.nil_append, List.cons_append,
      Bool.false_eq_true, if_false, s2]

/-- C14, with the scanning function `sscanfModel`. -/
theorem C14_scenario_witness :
    sscanfModel lineJane = scanJaneDoe ∧ sscanfModel lineAmir = scanAmirLee ∧
    main sscanfModel 3 [lineJane, lineAmir]
      = ([OutLine.record janeDoe none, OutLine.record amirLee (some 95)], 0) ∧
    main sscanfModel 3 [lineAmir, lineJane]
      = ([OutLine.record janeDoe none, OutLine.record amirLee (some 95)], 0) :=
  ⟨by decide, by decide,
   C14_scenario.2.2.2.2.2.2 sscanfModel (by decide) (by decide)⟩

/-- No `float` lies above `4.301` and at most at the `double` constant `4.301`: a
`float` that passes the check `gpa > 4.301` is at most `4.301`. -/
theorem binary32_le_4301 (q : ℚ) (hq : IsBinary32 q) (h : q ≤ gpaMax) : q ≤ 4301 / 1000 := by
  obtain ⟨m, e, hm, _, rfl⟩ := hq
  have eg : gpaMax = 2421247749665063 / 562949953421312 := by
    unfold gpaMax
    rw [Rat.mkRat_eq_div]
    norm_num
  rw [eg] at h
  by_contra hc
  rw [not_le] at hc
  have hm1 : (m : ℚ) < 2 ^ 24 := by
    have : m < 2 ^ 24 := lt_of_le_of_lt (le_abs_self m) hm
    exact_mod_cast this
  have h2pos : (0 : ℚ) < (2 : ℚ) ^ e := zpow_pos (by norm_num) e
  by_cases he : e ≤ -22
  · have hp : (2 : ℚ) ^ e ≤ (2 : ℚ) ^ (-22 : ℤ) := zpow_le_zpow_right₀ (by norm_num) he
    have hv : (2 : ℚ) ^ (-22 : ℤ) = 1 / 4194304 := by norm_num [zpow_neg]
    have hmpos : (0 : ℚ) < (m : ℚ) := by
      by_contra hneg
      rw [not_lt] at hneg
      have : (m : ℚ) * (2 : ℚ) ^ e ≤ 0 := mul_nonpos_of_nonpos_of_nonneg hneg h2pos.le
      linarith
    have : (m : ℚ) * (2 : ℚ) ^ e ≤ 2 ^ 24 * (1 / 4194304) := by
      rw [← hv]
      exact mul_le_mul hm1.le hp h2pos.le (by norm_num)
    norm_num at this
    linarith
  · obtain ⟨k, hk⟩ : ∃ k : ℕ, e = (k : ℤ) - 21 := ⟨(e + 21).toNat, by omega⟩
    have hpow : (2 : ℚ) ^ e = (2 : ℚ) ^ k / 2097152 := by
      rw [hk, zpow_sub₀ (by norm_num : (2 : ℚ) ≠ 0), zpow_natCast]
      norm_num
    rw [hpow] at h hc
    have hN : (m : ℚ) * ((2 : ℚ) ^ k / 2097152) = ((m * 2 ^ k : ℤ) : ℚ) / 2097152 := by
      push_cast
      ring
    rw [hN] at h hc
    have h1 : ((9019850 : ℤ) : ℚ) < ((m * 2 ^ k : ℤ) : ℚ) := by
      have : (4301 / 1000 : ℚ) * 2097152 < ((m * 2 ^ k : ℤ) : ℚ) := by
        rw [lt_div_iff₀ (by norm_num)] at hc
        exact hc
      norm_num at this ⊢
      linarith
    have h2 : (9019850 : ℤ) < m * 2 ^ k := by exact_mod_cast h1
    have h3 : (9019851 : ℤ) ≤ m * 2 ^ k := by omega
    have h4 : ((9019851 : ℤ) : ℚ) ≤ ((m * 2 ^ k : ℤ) : ℚ) := by exact_mod_cast h3
    have h5 : ((m * 2 ^ k : ℤ) : ℚ) ≤ (2421247749665063 / 562949953421312 : ℚ) * 2097152 := by
      rw [div_le_iff₀ (by norm_num)] at h
      exact h
    norm_num at h4 h5
    linarith

/-- A record that `parseLine` accepts is validated as soon as its GPA is no NaN and,
when finite, is a value of a `float`. -/
theorem parseLine_validated (sc : Scan) (r : Student) (hp : parseLine sc = some r)
    (hn : sc.gpa.isNaN = false) (hf : ∀ q, sc.gpa = CFloat.fin q → IsBinary32 q) :
    Validated r := by
  have hi := parseLine_invariant sc r hp
  obtain ⟨t, _, hpt⟩ := (parseLine_eq_some sc r).1 hp
  obtain ⟨_, _, hr⟩ := (parseTail_eq_some sc t r).1 hpt
  have hg : r.gpa = sc.gpa := by rw [hr]
  obtain ⟨i1, i2, i3, i4, i5, i6, i7⟩ := hi
  rw [hg] at i7
  obtain ⟨g1, g2, g3⟩ := i7 hn
  refine ⟨i1, i2, i3, i4, i5, ?_, i6⟩
  rw [hg]
  refine ⟨hn, g1, g2, ?_⟩
  have e : (mkRat 4301 1000 : ℚ) = 4301 / 1000 := by
    rw [Rat.mkRat_eq_div]; norm_num
  rw [e]
  cases hgp : sc.gpa with
  | nan => norm_num [CFloat.value]
  | negInf => norm_num [CFloat.value]
  | posInf => norm_num [CFloat.value]
  | negZero => norm_num [CFloat.value]
  | fin q =>
    rw [hgp] at g3
    exact binary32_le_4301 q (hf q hgp) g3

end StudentSort
